import Mathlib

/-!
# refactor-tool: a shallow embedding of the analyzer and the refactorer

The Go program scans React component files, extracts lexical facts with
regular expressions (`analyzer/analyzer.go`), derives suggestions from
thresholds, and rewrites the files in place (`refactor/refactor.go`).

Modelling conventions

* A Go `string` is modelled as a list of Unicode scalar values (`Str`), i.e.
  the files are assumed to hold valid UTF-8.  For such strings substring
  search on bytes and on code points agree, and the byte-wise order used by
  `sort.Strings` is the code-point-wise lexicographic order.
* Go `int` is modelled as `Int` (thresholds) or `Nat` (lengths, counters).
* Regular expressions are values of the type `Re`; `run` lists every way a
  pattern can match at a position in the priority order of a backtracking
  search, which is the leftmost-first rule Go's `regexp` package documents.
  The library loops (`allMatches`, `replaceAll`, `expand`, `extract`) are
  transcribed from the Go standard library.
* Replacement templates read a group name as a run of letters, digits and
  `_` (`unicode.IsLetter`, `unicode.IsDigit`).  The ASCII range is written
  out; the rest of Go's Unicode tables is the parameter `uni` of the
  functions that expand a template, and the properties hold for every `uni`.
* The file system is an explicit state, threaded through `ParseComponent`
  and `ApplyRefactoring`.
-/

namespace RefactorTool

/-- A Go string: a sequence of Unicode scalar values. -/
abbrev Str := List Char

/-! ## `strings` -/

/-- Go `strings.HasPrefix(s, p)`. -/
def stringsHasPrefix (s p : Str) : Bool := p.isPrefixOf s

/-- Go `strings.Contains(s, sub)`: `sub` occurs at some position of `s`. -/
def stringsContains : Str → Str → Bool
  | [], sub => sub.isEmpty
  | c :: cs, sub => stringsHasPrefix (c :: cs) sub || stringsContains cs sub

/-- Go `strings.Split(s, sep)` for a separator of one character, the only
form the program uses (`"\n"`): the segments between the separators. -/
def stringsSplit (sep : Char) : Str → List Str
  | [] => [[]]
  | c :: cs =>
    if c = sep then [] :: stringsSplit sep cs
    else
      match stringsSplit sep cs with
      | [] => [[c]]
      | seg :: segs => (c :: seg) :: segs

/-- Go `strings.Join(elems, sep)`. -/
def stringsJoin (sep : Str) : List Str → Str
  | [] => []
  | [a] => a
  | a :: b :: rest => a ++ sep ++ stringsJoin sep (b :: rest)

/-- Go string comparison `a < b`: lexicographic on the code points. -/
def strLt : Str → Str → Bool
  | _, [] => false
  | [], _ :: _ => true
  | a :: as, b :: bs => decide (a.toNat < b.toNat) || (a.toNat == b.toNat && strLt as bs)

/-- Insert `x` into an ascending list, before the first element greater
than it. -/
def insertSorted (x : Str) : List Str → List Str
  | [] => [x]
  | y :: ys => if strLt y x then y :: insertSorted x ys else x :: y :: ys

/-- Go `sort.Strings`: the list in ascending order of `<`.  Equal strings are
indistinguishable, so every sorting algorithm returns this same list. -/
def sortStrings : List Str → List Str
  | [] => []
  | x :: xs => insertSorted x (sortStrings xs)

/-- The verb `%d` of `fmt.Sprintf` applied to a non-negative integer. -/
def fmtNat (n : Nat) : Str := Nat.toDigits 10 n

/-! ## `regexp`: patterns and the backtracking search -/

/-- Regular expressions, as much of Go's syntax as the program's patterns
use: character classes, concatenation, alternation, greedy and lazy
repetition of zero or more, and numbered capture groups. -/
inductive Re where
  | eps : Re
  | cls : (Char → Bool) → Re
  | cat : Re → Re → Re
  | alt : Re → Re → Re
  | star : Re → Bool → Re
  | cap : Nat → Re → Re

/-- The state of a match in progress: the text still to read and the capture
groups closed so far, the most recent first. -/
structure MState where
  rest : Str
  caps : List (Nat × Str)

/-- Zero or more repetitions of `body`.  A greedy repetition prefers one more
round, a lazy one prefers to stop.  A round must consume text (every repeated
sub-pattern of this program does), so `fuel`, the length of the text left,
bounds the number of rounds. -/
def starRun (body : MState → List MState) (greedy : Bool) : Nat → MState → List MState
  | 0, st => [st]
  | fuel + 1, st =>
    let more := ((body st).filter fun st' => st'.rest.length < st.rest.length).flatMap
      (starRun body greedy fuel)
    if greedy then more ++ [st] else st :: more

/-- Every way `re` matches at the head of the text of `st`, in the order a
backtracking search tries them.  The head of the list is the match Go
reports at this position. -/
def run : Re → MState → List MState
  | .eps, st => [st]
  | .cls p, st =>
    match st.rest with
    | [] => []
    | c :: cs => if p c then [{ st with rest := cs }] else []
  | .cat a b, st => (run a st).flatMap (run b)
  | .alt a b, st => run a st ++ run b st
  | .star r greedy, st => starRun (run r) greedy st.rest.length st
  | .cap i r, st =>
    (run r st).map fun st' =>
      { st' with caps := (i, st.rest.take (st.rest.length - st'.rest.length)) :: st'.caps }

/-- The pattern matching exactly the text `s`. -/
def Re.lit : Str → Re
  | [] => .eps
  | c :: cs => .cat (.cls fun x => x == c) (Re.lit cs)

/-- One or more repetitions, `r+` (greedy) or `r+?` (lazy). -/
def Re.plus (r : Re) (greedy : Bool) : Re := .cat r (.star r greedy)

/-- The Perl class `\s` of Go: tab, newline, form feed, carriage return, space. -/
def isSpaceClass (c : Char) : Bool :=
  c == '\t' || c == '\n' || c == Char.ofNat 12 || c == '\r' || c == ' '

/-- The Perl class `\w` of Go: `[0-9A-Za-z_]`. -/
def isWordClass (c : Char) : Bool :=
  ('0' ≤ c && c ≤ '9') || ('A' ≤ c && c ≤ 'Z') || ('a' ≤ c && c ≤ 'z') || c == '_'

/-- The class `.` without the flag `s`: every character but the newline. -/
def isDotClass (c : Char) : Bool := c != '\n'

/-- The class `.` under the flag `(?s)`: every character. -/
def isAnyClass (_ : Char) : Bool := true

/-- A match found by a search: where it starts and stops in the source text,
the text matched and the text of each capture group that took part. -/
structure Loc where
  start : Nat
  stop : Nat
  text : Str
  caps : List (Nat × Str)

/-- The text of capture group `i`, the most recent one when the group was
closed more than once; `none` when the group took no part in the match. -/
def capLookup (i : Nat) : List (Nat × Str) → Option Str
  | [] => none
  | (j, s) :: rest => if j = i then some s else capLookup i rest

/-- The leftmost match in `s`, which is the text from position `pos` of the
source on: the first position with a match, and there the first match of the
backtracking order. -/
def searchFrom (re : Re) : Str → Nat → Option Loc
  | [], pos =>
    match (run re ⟨[], []⟩).head? with
    | some st => some ⟨pos, pos, [], st.caps⟩
    | none => none
  | c :: cs, pos =>
    match (run re ⟨c :: cs, []⟩).head? with
    | some st =>
      let n := (c :: cs).length - st.rest.length
      some ⟨pos, pos + n, (c :: cs).take n, st.caps⟩
    | none => searchFrom re cs (pos + 1)

/-- Go `(*Regexp).doExecute` on a string: the leftmost match at or after
`pos`, or `none`. -/
def doExecute (re : Re) (src : Str) (pos : Nat) : Option Loc :=
  searchFrom re (src.drop pos) pos

/-- The loop of Go `(*Regexp).allMatches` with no limit on the number of
matches.  `fuel` bounds the rounds; every round moves `pos` forward. -/
def allMatchesLoop (re : Re) (src : Str) : Nat → Nat → Option Nat → List Loc
  | 0, _, _ => []
  | fuel + 1, pos, prevMatchEnd =>
    if pos ≤ src.length then
      match doExecute re src pos with
      | none => []
      | some m =>
        let isEmpty := m.stop == pos
        let accept := !(isEmpty && prevMatchEnd == some m.start)
        let pos' :=
          if isEmpty then (if pos < src.length then pos + 1 else src.length + 1) else m.stop
        (if accept then [m] else []) ++ allMatchesLoop re src fuel pos' (some m.stop)
    else []

/-- Go `(*Regexp).allMatches(s, nil, -1, deliver)`. -/
def allMatches (re : Re) (src : Str) : List Loc :=
  allMatchesLoop re src (src.length + 2) 0 none

/-- Go `(*Regexp).FindAllString(s, -1)`. -/
def FindAllString (re : Re) (src : Str) : List Str :=
  (allMatches re src).map fun m => m.text

/-- One row of a submatch result: the text of group `i`, empty when the group
took no part. -/
def groupText (m : Loc) (i : Nat) : Str :=
  if i = 0 then m.text else (capLookup i m.caps).getD []

/-- Go `(*Regexp).FindAllStringSubmatch(s, -1)` for a pattern with `numSubexp`
groups: per match, the whole match followed by the groups. -/
def FindAllStringSubmatch (re : Re) (numSubexp : Nat) (src : Str) : List (List Str) :=
  (allMatches re src).map fun m => (List.range (numSubexp + 1)).map (groupText m)

/-- Go `(*Regexp).FindStringSubmatch(s)`: the leftmost match and its groups,
the empty slice when there is none. -/
def FindStringSubmatch (re : Re) (numSubexp : Nat) (src : Str) : List Str :=
  match doExecute re src 0 with
  | none => []
  | some m => (List.range (numSubexp + 1)).map (groupText m)

/-! ## `regexp`: replacement templates -/

/-- Go `strings.Cut(template, "$")`: the text before and after the first `$`. -/
def cutDollar : Str → Option (Str × Str)
  | [] => none
  | c :: cs =>
    if c = '$' then some ([], cs)
    else
      match cutDollar cs with
      | none => none
      | some (before, after) => some (c :: before, after)

/-- The characters of a group name in a template: a letter, a digit or `_`
(`unicode.IsLetter(r) || unicode.IsDigit(r) || r == '_'` in Go).  The ASCII
range is written out; beyond it the answer is that of Go's Unicode tables,
which are taken as the parameter `uni`. -/
def isNameRune (uni : Char → Bool) (c : Char) : Bool :=
  if c.toNat < 128 then c.isAlphanum || c == '_' else uni c

/-- The number a group name denotes: the loop of Go `extract` that reads the
name as a decimal number, giving up (`-1` in Go, `none` here) on a character
that is no digit or once the number has reached `1e8`. -/
def parseNumLoop : Str → Nat → Option Nat
  | [], num => some num
  | c :: cs, num =>
    if c < '0' || '9' < c || num ≥ 100000000 then none
    else parseNumLoop cs (num * 10 + (c.toNat - 48))

/-- What Go `extract` returns when it succeeds: the name, the number it
denotes (`none` for Go's `-1`) and the rest of the template. -/
structure Extracted where
  name : Str
  num : Option Nat
  rest : Str

/-- Go `regexp.extract(str)`: the name from a leading `name` or `{name}`;
`none` for Go's `ok == false`. -/
def extract (uni : Char → Bool) (str : Str) : Option Extracted :=
  match str with
  | [] => none
  | c0 :: tl =>
    let brace := c0 == '{'
    let str' := if brace then tl else c0 :: tl
    let name := str'.takeWhile (isNameRune uni)
    let after := str'.dropWhile (isNameRune uni)
    let num :=
      match name with
      | '0' :: _ :: _ => none
      | _ => parseNumLoop name 0
    if name.isEmpty then none
    else if brace then
      match after with
      | '}' :: rest => some ⟨name, num, rest⟩
      | _ => none
    else some ⟨name, num, after⟩

/-- The loop of Go `(*Regexp).expand`: copy the template to `dst`, replacing
`$$` by `$`, `$n` and `${n}` by the text of group `n` (nothing when the group
is out of range or took no part), and a `$name` by nothing, since none of the
program's patterns names a group.  The template shrinks every round. -/
def expandLoop (uni : Char → Bool) (m : Loc) : Nat → Str → Str → Str
  | 0, template, dst => dst ++ template
  | fuel + 1, template, dst =>
    match cutDollar template with
    | none => dst ++ template
    | some (before, after) =>
      match after with
      | '$' :: t => expandLoop uni m fuel t (dst ++ before ++ ['$'])
      | _ =>
        match extract uni after with
        | none => expandLoop uni m fuel after (dst ++ before ++ ['$'])
        | some e =>
          match e.num with
          | some n => expandLoop uni m fuel e.rest (dst ++ before ++ groupText m n)
          | none => expandLoop uni m fuel e.rest (dst ++ before)

/-- Go `(*Regexp).expand(dst, template, nil, src, match)`. -/
def expand (uni : Char → Bool) (m : Loc) (template dst : Str) : Str :=
  expandLoop uni m (template.length + 1) template dst

/-- The loop of Go `(*Regexp).replaceAll`: `lastMatchEnd` is the end of the
most recent match, `searchPos` the position the next search starts from and
`buf` the output so far.  Every round moves `searchPos` forward. -/
def replaceAllLoop (uni : Char → Bool) (re : Re) (src repl : Str) :
    Nat → Nat → Nat → Str → Str
  | 0, lastMatchEnd, _, buf => buf ++ src.drop lastMatchEnd
  | fuel + 1, lastMatchEnd, searchPos, buf =>
    if searchPos ≤ src.length then
      match doExecute re src searchPos with
      | none => buf ++ src.drop lastMatchEnd
      | some a =>
        let buf1 := buf ++ (src.drop lastMatchEnd).take (a.start - lastMatchEnd)
        let buf2 :=
          if a.stop > lastMatchEnd || a.start == 0 then expand uni a repl buf1 else buf1
        let width := if searchPos < src.length then 1 else 0
        let searchPos' :=
          if searchPos + width > a.stop then searchPos + width
          else if searchPos + 1 > a.stop then searchPos + 1
          else a.stop
        replaceAllLoop uni re src repl fuel a.stop searchPos' buf2
    else buf ++ src.drop lastMatchEnd

/-- Go `(*Regexp).ReplaceAllString(src, repl)`: every match of `re` in `src`
replaced by the expansion of the template `repl`. -/
def ReplaceAllString (uni : Char → Bool) (re : Re) (src repl : Str) : Str :=
  replaceAllLoop uni re src repl (src.length + 2) 0 0 []

/-! ## `types/types.go` -/

/-- Go `types.Component`: the facts extracted from one file. -/
structure Component where
  Name : Str
  Props : List Str
  Hooks : List Str
  Imports : List Str
  JSXElements : List Str
  FilePath : Str
  Content : Str

/-- Go `types.RefactorConfig`. -/
structure RefactorConfig where
  MaxLines : Int
  MaxHooks : Int
  MaxProps : Int
  UseMemo : Bool
  UseArrowFuncs : Bool
  SortImports : Bool

/-- The configuration `NewAnalyzer` and `NewRefactorer` start with (also
`config.DefaultConfig`). -/
def DefaultConfig : RefactorConfig :=
  { MaxLines := 300, MaxHooks := 5, MaxProps := 10,
    UseMemo := true, UseArrowFuncs := true, SortImports := true }

/-! ## The file system -/

/-- The file system as the program sees it: the content of the file at each
path, and the paths at which a write is refused. -/
structure FS where
  files : Str → Option Str
  writeFails : Str → Bool

/-- Go `ioutil.ReadFile`: the content, or `none` for an error. -/
def ReadFile (fs : FS) (path : Str) : Option Str := fs.files path

/-- Go `ioutil.WriteFile(path, data, 0644)`: the file system in which `path`
holds `data`, or `none` for an error, which leaves the file system as it was. -/
def WriteFile (fs : FS) (path data : Str) : Option FS :=
  if fs.writeFails path then none
  else some { fs with files := fun p => if p = path then some data else fs.files p }

/-! ## `analyzer/analyzer.go` -/

/-- The pattern `\s+`. -/
def spaces1 : Re := Re.plus (.cls isSpaceClass) true

/-- The pattern `\s*`. -/
def spaces0 : Re := .star (.cls isSpaceClass) true

/-- The pattern `\w+`. -/
def word1 : Re := Re.plus (.cls isWordClass) true

/-- The pattern `function\s+(\w+)|class\s+(\w+)` of `NewAnalyzer`. -/
def componentRegex : Re :=
  .alt (.cat (Re.lit "function".toList) (.cat spaces1 (.cap 1 word1)))
    (.cat (Re.lit "class".toList) (.cat spaces1 (.cap 2 word1)))

/-- The pattern `import.*from.*` of `NewAnalyzer`. -/
def importRegex : Re :=
  .cat (Re.lit "import".toList) (.cat (.star (.cls isDotClass) true)
    (.cat (Re.lit "from".toList) (.star (.cls isDotClass) true)))

/-- The pattern `use\w+\(` of `NewAnalyzer`. -/
def hookRegex : Re :=
  .cat (Re.lit "use".toList) (.cat word1 (Re.lit "(".toList))

/-- The pattern `\{(\w+)\}|\s(\w+)=` of `NewAnalyzer`. -/
def propsRegex : Re :=
  .alt (.cat (Re.lit "\x7b".toList) (.cat (.cap 1 word1) (Re.lit "\x7d".toList)))
    (.cat (.cls isSpaceClass) (.cat (.cap 2 word1) (Re.lit "=".toList)))

/-- The pattern `<(\w+)[^>]*>` of `NewAnalyzer`. -/
def jsxRegex : Re :=
  .cat (Re.lit "<".toList) (.cat (.cap 1 word1)
    (.cat (.star (.cls fun c => c != '>') true) (Re.lit ">".toList)))

/-- One round of the loop of `removeDuplicates`: `keys` is the set of the
entries seen, `list` the output. -/
def removeDuplicatesStep (acc : List Str × List Str) (entry : Str) : List Str × List Str :=
  if entry ∈ acc.1 then acc else (entry :: acc.1, acc.2 ++ [entry])

/-- Go `removeDuplicates(slice)`. -/
def removeDuplicates (slice : List Str) : List Str :=
  (slice.foldl removeDuplicatesStep ([], [])).2

/-- One round of the loop of `extractProps` over a submatch row. -/
def extractPropsStep (props : List Str) (row : List Str) : List Str :=
  if row.getD 1 [] ≠ [] then props ++ [row.getD 1 []]
  else if row.getD 2 [] ≠ [] then props ++ [row.getD 2 []]
  else props

/-- The identifiers `extractProps` collects before it removes the duplicates. -/
def matchedProps (content : Str) : List Str :=
  (FindAllStringSubmatch propsRegex 2 content).foldl extractPropsStep []

/-- Go `(*Analyzer).extractProps`. -/
def extractProps (content : Str) : List Str :=
  removeDuplicates (matchedProps content)

/-- Go `(*Analyzer).extractHooks`. -/
def extractHooks (content : Str) : List Str := FindAllString hookRegex content

/-- Go `(*Analyzer).extractImports`. -/
def extractImports (content : Str) : List Str := FindAllString importRegex content

/-- Go `(*Analyzer).extractJSX`. -/
def extractJSX (content : Str) : List Str := FindAllString jsxRegex content

/-- The component name `ParseComponent` extracts from the content. -/
def extractName (strContent : Str) : Str :=
  let m := FindStringSubmatch componentRegex 2 strContent
  if m.length > 1 then
    if m.getD 1 [] ≠ [] then m.getD 1 []
    else if m.getD 2 [] ≠ [] then m.getD 2 []
    else "Unknown".toList
  else "Unknown".toList

/-- The facts record `ParseComponent` builds from the content read. -/
def parseContent (filePath strContent : Str) : Component :=
  { Name := extractName strContent,
    Props := extractProps strContent,
    Hooks := extractHooks strContent,
    Imports := extractImports strContent,
    JSXElements := extractJSX strContent,
    FilePath := filePath,
    Content := strContent }

/-- Go `(*Analyzer).ParseComponent`: `none` when the file cannot be read. -/
def ParseComponent (fs : FS) (filePath : Str) : Option Component :=
  match ReadFile fs filePath with
  | none => none
  | some content => some (parseContent filePath content)

/-- The number of lines `AnalyzeComponent` counts:
`len(strings.Split(component.Content, "\n"))`. -/
def lineCount (content : Str) : Nat := (stringsSplit '\n' content).length

/-- `fmt.Sprintf("Component is too large (%d lines). Consider splitting it", lines)`. -/
def sizeSuggestion (lines : Nat) : Str :=
  "Component is too large (".toList ++ fmtNat lines ++ " lines). Consider splitting it".toList

/-- `fmt.Sprintf("Too many hooks (%d). Consider custom hooks", n)`. -/
def hookSuggestion (n : Nat) : Str :=
  "Too many hooks (".toList ++ fmtNat n ++ "). Consider custom hooks".toList

/-- `fmt.Sprintf("Too many props (%d). Consider composition", n)`. -/
def propSuggestion (n : Nat) : Str :=
  "Too many props (".toList ++ fmtNat n ++ "). Consider composition".toList

/-- Go `(*Analyzer).AnalyzeComponent` with the analyzer's configuration
`config`. -/
def AnalyzeComponent (config : RefactorConfig) (component : Component) : List Str :=
  let suggestions : List Str := []
  let lines := lineCount component.Content
  let suggestions :=
    if (lines : Int) > config.MaxLines then suggestions ++ [sizeSuggestion lines]
    else suggestions
  let suggestions :=
    if (component.Hooks.length : Int) > config.MaxHooks then
      suggestions ++ [hookSuggestion component.Hooks.length]
    else suggestions
  let suggestions :=
    if (component.Props.length : Int) > config.MaxProps then
      suggestions ++ [propSuggestion component.Props.length]
    else suggestions
  suggestions

/-- The statement `imports[imp]++` on a Go map, kept as a list of entries
with distinct keys. -/
def mapIncr (imp : Str) : List (Str × Nat) → List (Str × Nat)
  | [] => [(imp, 1)]
  | (k, n) :: rest => if k = imp then (k, n + 1) :: rest else (k, n) :: mapIncr imp rest

/-- The first loop of `AnalyzeDependencies`: the map from each import string
to the number of its occurrences in the records. -/
def countImports (components : List Component) : List (Str × Nat) :=
  components.foldl (fun m comp => comp.Imports.foldl (fun m imp => mapIncr imp m) m) []

/-- `fmt.Sprintf("Consider creating a custom hook for commonly used state
logic (%s)", imp)`. -/
def dependencySuggestion (imp : Str) : Str :=
  "Consider creating a custom hook for commonly used state logic (".toList ++ imp ++ ")".toList

/-- The second loop of `AnalyzeDependencies` over the entries of the map in
the order `entries`, for `total = len(components)`. -/
def rangeImports (total : Nat) (entries : List (Str × Nat)) : List Str :=
  entries.foldl
    (fun suggestions e =>
      if e.2 > total / 2 && stringsContains e.1 "useState".toList then
        suggestions ++ [dependencySuggestion e.1]
      else suggestions)
    []

/-- Go `(*Analyzer).AnalyzeDependencies`.  Go leaves the order in which
`range` visits a map unspecified, so the function is a relation: `out` is a
result when it is what the second loop produces for some order of the map's
entries. -/
def AnalyzeDependencies (components : List Component) (out : List Str) : Prop :=
  ∃ entries, entries.Perm (countImports components) ∧
    out = rangeImports components.length entries

/-- One run of `AnalyzeDependencies`: the map visited in the order in which
the keys were first inserted. -/
def AnalyzeDependenciesInOrder (components : List Component) : List Str :=
  rangeImports components.length (countImports components)

/-! ## `refactor/refactor.go` -/

/-- The pattern `function\s+NAME\s*\((.*?)\)\s*{` that `convertToArrowFunction`
compiles, for a component name of word characters. -/
def arrowRegex (componentName : Str) : Re :=
  .cat (Re.lit "function".toList) (.cat spaces1 (.cat (Re.lit componentName)
    (.cat spaces0 (.cat (Re.lit "(".toList) (.cat (.cap 1 (.star (.cls isDotClass) false))
      (.cat (Re.lit ")".toList) (.cat spaces0 (Re.lit "\x7b".toList))))))))

/-- The pattern `export default NAME` that `addMemo` compiles, for a component
name of word characters. -/
def exportRegex (componentName : Str) : Re :=
  Re.lit ("export default ".toList ++ componentName)

/-- The pattern `(?s)(import.*?\n)+` of `sortImports`. -/
def importSection : Re :=
  Re.plus (.cap 1 (.cat (Re.lit "import".toList)
    (.cat (.star (.cls isAnyClass) false) (Re.lit "\n".toList)))) true

/-- The names the two `fmt.Sprintf` patterns are modelled for.  The name is
spliced into the pattern text unescaped: a name of word characters, the only
kind `ParseComponent` produces, is read as the literal name, while any other
character could be read as pattern syntax. -/
def isPlainName (componentName : Str) : Bool := componentName.all isWordClass

/-- Go `(*Refactorer).convertToArrowFunction`; `none` for a name outside the
modelled ones. -/
def convertToArrowFunction (uni : Char → Bool) (content componentName : Str) : Option Str :=
  if isPlainName componentName then
    some (ReplaceAllString uni (arrowRegex componentName) content
      ("const ".toList ++ componentName ++ " = ($1) => \x7b".toList))
  else none

/-- Go `(*Refactorer).addMemo`; `none` for a name outside the modelled ones. -/
def addMemo (uni : Char → Bool) (content componentName : Str) : Option Str :=
  let content :=
    if !stringsContains content "import { memo }".toList then
      "import { memo } from 'react';\n".toList ++ content
    else content
  if isPlainName componentName then
    some (ReplaceAllString uni (exportRegex componentName) content
      ("export default memo(".toList ++ componentName ++ ")".toList))
  else none

/-- The three groups of `sortImports`, in the order (react, third party,
local). -/
structure ImportGroups where
  reactImports : List Str
  thirdPartyImports : List Str
  localImports : List Str

/-- One round of the grouping loop of `sortImports`: the `switch` on `imp`. -/
def groupStep (g : ImportGroups) (imp : Str) : ImportGroups :=
  if stringsContains imp "react".toList then
    { g with reactImports := g.reactImports ++ [imp] }
  else if stringsHasPrefix imp ".".toList then
    { g with localImports := g.localImports ++ [imp] }
  else
    { g with thirdPartyImports := g.thirdPartyImports ++ [imp] }

/-- The list `allImports` of `sortImports`: the groups, each sorted, one after
the other. -/
def allImports (imports : List Str) : List Str :=
  let g := imports.foldl groupStep ⟨[], [], []⟩
  sortStrings g.reactImports ++ sortStrings g.thirdPartyImports ++ sortStrings g.localImports

/-- Go `(*Refactorer).sortImports`. -/
def sortImports (uni : Char → Bool) (content : Str) (imports : List Str) : Str :=
  if imports.length = 0 then content
  else
    let newImports := stringsJoin "\n".toList (allImports imports)
    ReplaceAllString uni importSection content (newImports ++ "\n\n".toList)

/-- The content `ApplyRefactoring` computes between its two writes. -/
def refactoredContent (uni : Char → Bool) (config : RefactorConfig) (component : Component) :
    Option Str :=
  let content := component.Content
  let content :=
    if config.UseArrowFuncs && stringsContains content "function ".toList then
      convertToArrowFunction uni content component.Name
    else some content
  let content :=
    match content with
    | none => none
    | some content =>
      if config.UseMemo && decide (component.Props.length > 2)
          && !stringsContains content "memo".toList then
        addMemo uni content component.Name
      else some content
  match content with
  | none => none
  | some content =>
    if config.SortImports then some (sortImports uni content component.Imports)
    else some content

/-- What `ApplyRefactoring` returns. -/
inductive Outcome where
  | ok : Outcome
  | backupError : Outcome
  | writeError : Outcome
  deriving DecidableEq

/-- Go `(*Refactorer).ApplyRefactoring` with the refactorer's configuration
`config`: the file system it leaves and the error it returns, or `none` for a
component name outside the modelled ones. -/
def ApplyRefactoring (uni : Char → Bool) (config : RefactorConfig) (component : Component)
    (fs : FS) : Option (FS × Outcome) :=
  let backupPath := component.FilePath ++ ".backup".toList
  match WriteFile fs backupPath component.Content with
  | none => some (fs, .backupError)
  | some fs1 =>
    match refactoredContent uni config component with
    | none => none
    | some content =>
      match WriteFile fs1 component.FilePath content with
      | none => some (fs1, .writeError)
      | some fs2 => some (fs2, .ok)

/-! ## Functions used to state the properties -/

/-- The output of the loop of `removeDuplicates` once the entries `seen` have
been met: the entries of the list that are new, each at its first position. -/
def dedupFrom (seen : List Str) : List Str → List Str
  | [] => []
  | x :: xs => if x ∈ seen then dedupFrom seen xs else x :: dedupFrom (x :: seen) xs

/-- A suggestion of the hook-count check, recognised by its fixed opening. -/
def isHookSuggestion (s : Str) : Bool := stringsHasPrefix s "Too many hooks (".toList

/-- A file system with no file, where every write succeeds. -/
def emptyFS : FS := { files := fun _ => none, writeFails := fun _ => false }

/-- A Unicode table that knows no letter or digit beyond ASCII; the concrete
inputs below are ASCII texts, for which the table is never consulted. -/
def asciiOnly : Char → Bool := fun _ => false

/-- A facts record on which no rewrite applies: no function declaration, no
prop, no import. -/
def plainComponent : Component :=
  { Name := "Unknown".toList, Props := [], Hooks := [], Imports := [], JSXElements := [],
    FilePath := "a.jsx".toList, Content := "const x = 1;\n".toList }

/-- The file system after `plainComponent` has been rewritten in `emptyFS`. -/
def plainComponentFS : FS :=
  { files := fun p =>
      if p = "a.jsx".toList then some "const x = 1;\n".toList
      else if p = "a.jsx.backup".toList then some "const x = 1;\n".toList
      else none,
    writeFails := fun _ => false }

/-- Bucket A of the import sort as the specification words it: the strings
containing `react`. -/
def frameworkBucket (imports : List Str) : List Str :=
  imports.filter fun s => stringsContains s "react".toList

/-- Bucket C as the specification words it: the remaining strings that start
with `.`. -/
def relativeBucket (imports : List Str) : List Str :=
  imports.filter fun s => !stringsContains s "react".toList && stringsHasPrefix s ".".toList

/-- Bucket B as the specification words it: everything else. -/
def otherBucket (imports : List Str) : List Str :=
  imports.filter fun s => !stringsContains s "react".toList && !stringsHasPrefix s ".".toList

/-- A list in ascending order: no element is greater than a later one. -/
def Ascending (l : List Str) : Prop := l.Pairwise fun a b => strLt b a = false

/-- Every import string of every record, in order, duplicates kept. -/
def allImportStrings (components : List Component) : List Str :=
  components.flatMap fun c => c.Imports

/-- The condition of the dependency check on an import string: it occurs in
the records more than `floor(len(records) / 2)` times and contains `useState`. -/
def isCommonStateImport (components : List Component) (imp : Str) : Bool :=
  decide ((allImportStrings components).count imp > components.length / 2)
    && stringsContains imp "useState".toList

/-- A map well formed for the list `l` of the keys inserted so far: distinct
keys, and an entry `(k, n)` exactly when `k` occurs `n > 0` times in `l`. -/
def CountsOf (m : List (Str × Nat)) (l : List Str) : Prop :=
  (m.map Prod.fst).Nodup ∧ ∀ k n, (k, n) ∈ m ↔ (0 < n ∧ n = l.count k)

/-- Two records sharing an import of `useState`, and one without it. -/
def threeRecords : List Component :=
  [ { plainComponent with Imports := ["import { useState } from 'react'".toList] },
    { plainComponent with Imports := ["import { useState } from 'react'".toList,
                                      "import x from 'y'".toList] },
    plainComponent ]

/-- The text `ApplyRefactoring` writes for the facts record extracted from the
text `T` of the file at `filePath` (`rewrite(T)` in the specification). -/
def rewriteOf (uni : Char → Bool) (config : RefactorConfig) (filePath T : Str) : Option Str :=
  refactoredContent uni config (parseContent filePath T)

/-- A configuration in which only the memoization wrap is enabled. -/
def memoOnlyConfig : RefactorConfig :=
  { DefaultConfig with UseArrowFuncs := false, SortImports := false }

/-- A text of ASCII characters only. -/
def isAsciiText (s : Str) : Bool := s.all fun c => decide (c.toNat < 128)

/-- A component with three props, an import and a default export. -/
def memoSource : Str :=
  "import React from 'react'\nfunction Foo() { return <div a=1 b=2 c=3/> }\nexport default Foo\n".toList

/-- What `ApplyRefactoring` writes for `memoSource` under the default
configuration. -/
def memoRewritten : Str :=
  "import React from 'react'\n\nconst Foo = () => { return <div a=1 b=2 c=3/> }\nexport default memo(Foo)\n".toList

/-- A file system holding `memoSource` at `Foo.jsx`, where every write
succeeds. -/
def memoSourceFS : FS :=
  { files := fun p => if p = "Foo.jsx".toList then some memoSource else none,
    writeFails := fun _ => false }

/-- A file with an import, a statement, and a second import. -/
def twoBlockSource : Str := "import a from 'a'\nconst x = 1;\nimport b from 'b'\n".toList

/-- A file importing a package and then a relative module. -/
def relativeSource : Str := "import b from 'lodash'\nimport a from './c'\n".toList

/-- A file with one import statement followed by one other statement. -/
def oneImportSource : Str := "import a from 'b'\nconst x = 1;\n".toList

/-- The end-to-end scenario of the specification: a function component. -/
def fooSource : Str := "function Foo(props) \x7b return <div>\x7bx\x7d</div>; \x7d".toList

/-! # Properties -/

/-! ## Deduplication -/

theorem foldl_removeDuplicatesStep (l : List Str) (keys out : List Str) :
    (l.foldl removeDuplicatesStep (keys, out)).2 = out ++ dedupFrom keys l := by
  induction l generalizing keys out with
  | nil => simp [dedupFrom]
  | cons x xs ih =>
    by_cases hx : x ∈ keys
    · simp [List.foldl_cons, removeDuplicatesStep, hx, dedupFrom, ih]
    · simp [List.foldl_cons, removeDuplicatesStep, hx, dedupFrom, ih]

theorem removeDuplicates_eq (l : List Str) : removeDuplicates l = dedupFrom [] l := by
  simp [removeDuplicates, foldl_removeDuplicatesStep]

theorem mem_dedupFrom (seen l : List Str) (x : Str) :
    x ∈ dedupFrom seen l ↔ x ∈ l ∧ x ∉ seen := by
  induction l generalizing seen with
  | nil => simp [dedupFrom]
  | cons a t ih =>
    by_cases ha : a ∈ seen
    · simp only [dedupFrom, ha, if_true, ih, List.mem_cons]
      constructor
      · rintro ⟨h1, h2⟩; exact ⟨Or.inr h1, h2⟩
      · rintro ⟨h1 | h1, h2⟩
        · subst h1; exact absurd ha h2
        · exact ⟨h1, h2⟩
    · simp only [dedupFrom, ha, if_false, List.mem_cons, ih]
      constructor
      · rintro (h | ⟨h1, h2⟩)
        · subst h; exact ⟨Or.inl rfl, ha⟩
        · exact ⟨Or.inr h1, fun h => h2 (Or.inr h)⟩
      · rintro ⟨h1 | h1, h2⟩
        · exact Or.inl h1
        · by_cases hxa : x = a
          · exact Or.inl hxa
          · exact Or.inr ⟨h1, fun h => h.elim hxa h2⟩

theorem nodup_dedupFrom (seen l : List Str) : (dedupFrom seen l).Nodup := by
  induction l generalizing seen with
  | nil => simp [dedupFrom]
  | cons a t ih =>
    by_cases ha : a ∈ seen
    · simp only [dedupFrom, ha, if_true]; exact ih seen
    · simp only [dedupFrom, ha, if_false, List.nodup_cons]
      refine ⟨?_, ih _⟩
      rw [mem_dedupFrom]
      simp

theorem dedupFrom_of_nodup (seen l : List Str) (hn : l.Nodup) (hd : ∀ x ∈ l, x ∉ seen) :
    dedupFrom seen l = l := by
  induction l generalizing seen with
  | nil => simp [dedupFrom]
  | cons a t ih =>
    have ha : a ∉ seen := hd a (List.mem_cons_self _ _)
    rw [List.nodup_cons] at hn
    simp only [dedupFrom, ha, if_false]
    congr 1
    apply ih _ hn.2
    intro x hx hmem
    rcases List.mem_cons.1 hmem with h | h
    · subst h; exact hn.1 hx
    · exact hd x (List.mem_cons_of_mem _ hx) h

theorem indexOf_cons_other (a x : Str) (t : List Str) (h : a ≠ x) :
    List.indexOf x (a :: t) = List.indexOf x t + 1 := by
  have hb : (a == x) = false := by simpa using h
  rw [List.indexOf_cons, hb]
  rfl

theorem indexOf_cons_same (a : Str) (t : List Str) : List.indexOf a (a :: t) = 0 := by
  simp [List.indexOf_cons]

theorem indexOf_dedupFrom (seen l : List Str) (x y : Str)
    (hx : x ∈ dedupFrom seen l) (hy : y ∈ dedupFrom seen l) :
    (List.indexOf x (dedupFrom seen l) < List.indexOf y (dedupFrom seen l) ↔
      List.indexOf x l < List.indexOf y l) := by
  induction l generalizing seen with
  | nil => simp [dedupFrom] at hx
  | cons a t ih =>
    by_cases ha : a ∈ seen
    · simp only [dedupFrom, ha, if_true] at hx hy ⊢
      have hxa : a ≠ x := by
        rintro rfl; exact ((mem_dedupFrom _ _ _).1 hx).2 ha
      have hya : a ≠ y := by
        rintro rfl; exact ((mem_dedupFrom _ _ _).1 hy).2 ha
      have h := ih seen hx hy
      rw [indexOf_cons_other _ _ _ hxa, indexOf_cons_other _ _ _ hya]
      omega
    · simp only [dedupFrom, ha, if_false] at hx hy ⊢
      by_cases hxa : a = x
      · subst hxa
        by_cases hya : a = y
        · subst hya; simp
        · rw [indexOf_cons_same, indexOf_cons_same,
            indexOf_cons_other _ _ _ hya, indexOf_cons_other _ _ _ hya]
          simp
      · by_cases hya : a = y
        · subst hya
          rw [indexOf_cons_same, indexOf_cons_same]
          simp
        · have hx' : x ∈ dedupFrom (a :: seen) t := by
            rcases List.mem_cons.1 hx with h | h
            · exact absurd h.symm hxa
            · exact h
          have hy' : y ∈ dedupFrom (a :: seen) t := by
            rcases List.mem_cons.1 hy with h | h
            · exact absurd h.symm hya
            · exact h
          have h := ih _ hx' hy'
          rw [indexOf_cons_other _ _ _ hxa, indexOf_cons_other _ _ _ hya,
            indexOf_cons_other _ _ _ hxa, indexOf_cons_other _ _ _ hya]
          omega

/-- C10. `removeDuplicates`, the last step of `extractProps`, returns a list
without repetition that has exactly the elements of its input, in the order
of their first appearance in the input, and it is idempotent.  The matches
`[a, a, b]` of the text ` {a} {a} b=` become the props `[a, b]`. -/
theorem C10_removeDuplicates_first_occurrences (slice : List Str) :
    (removeDuplicates slice).Nodup ∧
    (∀ x, x ∈ removeDuplicates slice ↔ x ∈ slice) ∧
    (∀ x y, x ∈ slice → y ∈ slice →
      (List.indexOf x (removeDuplicates slice) < List.indexOf y (removeDuplicates slice) ↔
        List.indexOf x slice < List.indexOf y slice)) ∧
    removeDuplicates (removeDuplicates slice) = removeDuplicates slice ∧
    matchedProps " {a} {a} b=".toList = ["a".toList, "a".toList, "b".toList] ∧
    extractProps " {a} {a} b=".toList = ["a".toList, "b".toList] := by
  refine ⟨?_, ?_, ?_, ?_, by decide, by decide⟩
  · rw [removeDuplicates_eq]; exact nodup_dedupFrom _ _
  · intro x; rw [removeDuplicates_eq, mem_dedupFrom]; simp
  · intro x y hx hy
    rw [removeDuplicates_eq]
    apply indexOf_dedupFrom
    · rw [mem_dedupFrom]; simp [hx]
    · rw [mem_dedupFrom]; simp [hy]
  · simp only [removeDuplicates_eq]
    exact dedupFrom_of_nodup [] (dedupFrom [] slice) (nodup_dedupFrom _ _) (by simp)

/-! ## Rule evaluation -/

theorem length_stringsSplit (sep : Char) (s : Str) :
    (stringsSplit sep s).length = s.count sep + 1 := by
  induction s with
  | nil => simp [stringsSplit]
  | cons c cs ih =>
    by_cases h : c = sep
    · subst h
      simp [stringsSplit, ih]
    · have hne : (c == sep) = false := by simpa using h
      rw [List.count_cons, hne]
      simp only [stringsSplit, h, if_false]
      cases hs : stringsSplit sep cs with
      | nil => rw [hs] at ih; simp at ih
      | cons seg segs => rw [hs] at ih; simpa using ih

theorem isHookSuggestion_size (n : Nat) : isHookSuggestion (sizeSuggestion n) = false := rfl

theorem isHookSuggestion_hook (n : Nat) : isHookSuggestion (hookSuggestion n) = true := by
  unfold isHookSuggestion hookSuggestion stringsHasPrefix
  rw [List.isPrefixOf_iff_prefix, List.append_assoc]
  exact List.prefix_append _ _

theorem isHookSuggestion_prop (n : Nat) : isHookSuggestion (propSuggestion n) = false := rfl

theorem sizeSuggestion_ne_hook (a b : Nat) : sizeSuggestion a ≠ hookSuggestion b := by
  intro h
  have := congrArg isHookSuggestion h
  rw [isHookSuggestion_size, isHookSuggestion_hook] at this
  exact Bool.noConfusion this

theorem propSuggestion_ne_hook (a b : Nat) : propSuggestion a ≠ hookSuggestion b := by
  intro h
  have := congrArg isHookSuggestion h
  rw [isHookSuggestion_prop, isHookSuggestion_hook] at this
  exact Bool.noConfusion this

theorem sizeSuggestion_ne_prop (a b : Nat) : sizeSuggestion a ≠ propSuggestion b := by
  intro h
  have h1 : (sizeSuggestion a).head? = some 'C' := rfl
  have h2 : (propSuggestion b).head? = some 'T' := rfl
  rw [h] at h1
  rw [h1] at h2
  exact absurd h2 (by decide)

/-- C4. `AnalyzeComponent` returns the size suggestion, the hook suggestion
and the prop suggestion, in this order, each present exactly when its count
exceeds its threshold and naming that count; the line count is the number of
newline-separated segments of the content (1 for the empty content).  So the
result has no repetition, is empty when no check fires, holds no hook
suggestion for exactly `MaxHooks` hooks and exactly one for `MaxHooks + 1`. -/
theorem C4_AnalyzeComponent_rules (config : RefactorConfig) (c : Component) :
    AnalyzeComponent config c =
      (if (lineCount c.Content : Int) > config.MaxLines
        then [sizeSuggestion (lineCount c.Content)] else []) ++
      (if (c.Hooks.length : Int) > config.MaxHooks
        then [hookSuggestion c.Hooks.length] else []) ++
      (if (c.Props.length : Int) > config.MaxProps
        then [propSuggestion c.Props.length] else []) ∧
    lineCount c.Content = c.Content.count '\n' + 1 ∧
    lineCount [] = 1 ∧
    (AnalyzeComponent config c).Nodup ∧
    ((lineCount c.Content : Int) ≤ config.MaxLines → (c.Hooks.length : Int) ≤ config.MaxHooks →
      (c.Props.length : Int) ≤ config.MaxProps → AnalyzeComponent config c = []) ∧
    ((c.Hooks.length : Int) = config.MaxHooks →
      (AnalyzeComponent config c).countP isHookSuggestion = 0) ∧
    ((c.Hooks.length : Int) = config.MaxHooks + 1 →
      (AnalyzeComponent config c).countP isHookSuggestion = 1 ∧
      hookSuggestion c.Hooks.length ∈ AnalyzeComponent config c) := by
  have hs := sizeSuggestion_ne_hook
  have hp := propSuggestion_ne_hook
  have hsp := sizeSuggestion_ne_prop
  have e1 := isHookSuggestion_size
  have e2 := isHookSuggestion_hook
  have e3 := isHookSuggestion_prop
  refine ⟨?_, length_stringsSplit _ _, rfl, ?_, ?_, ?_, ?_⟩
  · unfold AnalyzeComponent
    by_cases h1 : (lineCount c.Content : Int) > config.MaxLines <;>
      by_cases h2 : (c.Hooks.length : Int) > config.MaxHooks <;>
      by_cases h3 : (c.Props.length : Int) > config.MaxProps <;>
      simp [h1, h2, h3]
  · unfold AnalyzeComponent
    by_cases h1 : (lineCount c.Content : Int) > config.MaxLines <;>
      by_cases h2 : (c.Hooks.length : Int) > config.MaxHooks <;>
      by_cases h3 : (c.Props.length : Int) > config.MaxProps <;>
      simp [h1, h2, h3, hs, hsp, (hp _ _).symm]
  · intro h1 h2 h3
    unfold AnalyzeComponent
    simp [not_lt.2 h1, not_lt.2 h2, not_lt.2 h3]
  · intro h
    have h2 : ¬ (c.Hooks.length : Int) > config.MaxHooks := by omega
    unfold AnalyzeComponent
    by_cases h1 : (lineCount c.Content : Int) > config.MaxLines <;>
      by_cases h3 : (c.Props.length : Int) > config.MaxProps <;>
      simp [h1, h2, h3, e1, e3, List.countP_cons]
  · intro h
    have h2 : (c.Hooks.length : Int) > config.MaxHooks := by omega
    unfold AnalyzeComponent
    by_cases h1 : (lineCount c.Content : Int) > config.MaxLines <;>
      by_cases h3 : (c.Props.length : Int) > config.MaxProps <;>
      simp [h1, h2, h3, e1, e2, e3, List.countP_cons]

/-! ## Rewriting when no transformation applies -/

theorem refactoredContent_noop (uni : Char → Bool) (config : RefactorConfig) (c : Component)
    (harrow : config.UseArrowFuncs = false ∨ stringsContains c.Content "function ".toList = false)
    (hmemo : config.UseMemo = false ∨ c.Props.length ≤ 2 ∨
      stringsContains c.Content "memo".toList = true)
    (hsort : config.SortImports = false ∨ c.Imports = []) :
    refactoredContent uni config c = some c.Content := by
  have h1 : (config.UseArrowFuncs && stringsContains c.Content "function ".toList) = false := by
    rcases harrow with h | h <;> simp only [h, Bool.and_false, Bool.false_and]
  have h2 : (config.UseMemo && decide (c.Props.length > 2)
      && !stringsContains c.Content "memo".toList) = false := by
    rcases hmemo with h | h | h
    · simp only [h, Bool.false_and]
    · have : decide (c.Props.length > 2) = false := by simpa using h
      simp only [this, Bool.and_false, Bool.false_and]
    · simp only [h, Bool.not_true, Bool.and_false]
  unfold refactoredContent
  simp only [h1, h2, Bool.false_eq_true, if_false]
  rcases hsort with h | h
  · simp [h]
  · simp [h, sortImports]

theorem append_backup_ne (p : Str) : ¬ p = p ++ ".backup".toList := by
  intro h
  have := congrArg List.length h
  simp at this

/-- C1. When no rewrite applies (arrow conversion off or no `function ` in the
content, memoization off or at most two props or `memo` already in the
content, sorting off or no import), a successful `ApplyRefactoring` leaves the
file at `FilePath` and the file at `FilePath + ".backup"` both holding exactly
the original content. -/
theorem C1_noop_rewrite_keeps_content (uni : Char → Bool) (config : RefactorConfig)
    (c : Component) (fs fs' : FS)
    (harrow : config.UseArrowFuncs = false ∨ stringsContains c.Content "function ".toList = false)
    (hmemo : config.UseMemo = false ∨ c.Props.length ≤ 2 ∨
      stringsContains c.Content "memo".toList = true)
    (hsort : config.SortImports = false ∨ c.Imports = [])
    (hok : ApplyRefactoring uni config c fs = some (fs', Outcome.ok)) :
    ReadFile fs' c.FilePath = some c.Content ∧
    ReadFile fs' (c.FilePath ++ ".backup".toList) = some c.Content := by
  have hne : ¬ c.FilePath = c.FilePath ++ ".backup".toList := append_backup_ne _
  unfold ApplyRefactoring at hok
  rw [refactoredContent_noop uni config c harrow hmemo hsort] at hok
  generalize c.FilePath ++ ".backup".toList = bp at hok hne ⊢
  unfold WriteFile at hok
  by_cases hb : fs.writeFails bp = true
  · simp [hb] at hok
  · by_cases hw : fs.writeFails c.FilePath = true
    · simp [hb, hw] at hok
    · simp only [hb, hw, Bool.false_eq_true, if_false, Option.some.injEq, Prod.mk.injEq,
        and_true] at hok
      subst hok
      have hne' : ¬ bp = c.FilePath := fun h => hne h.symm
      simp [ReadFile, hne']

/-- C1 at a concrete input: rewriting `plainComponent` in the empty file
system succeeds and leaves the content in both files. -/
theorem C1_noop_rewrite_witness :
    ReadFile plainComponentFS "a.jsx".toList = some "const x = 1;\n".toList ∧
    ReadFile plainComponentFS ("a.jsx".toList ++ ".backup".toList)
      = some "const x = 1;\n".toList :=
  C1_noop_rewrite_keeps_content asciiOnly DefaultConfig plainComponent emptyFS plainComponentFS
    (Or.inr (by decide)) (Or.inr (Or.inl (by decide))) (Or.inr rfl) (by rfl)

/-! ## Import partition and sort -/

theorem strLt_cons_cons (a b : Char) (as bs : Str) :
    (strLt (a :: as) (b :: bs) = true ↔
      a.toNat < b.toNat ∨ (a.toNat = b.toNat ∧ strLt as bs = true)) := by
  simp [strLt]

theorem strLt_asymm (a b : Str) (h : strLt a b = true) : strLt b a = false := by
  induction a generalizing b with
  | nil => cases b <;> simp [strLt] at h ⊢
  | cons x xs ih =>
    cases b with
    | nil => simp [strLt] at h
    | cons y ys =>
      rw [strLt_cons_cons] at h
      rw [← Bool.not_eq_true, strLt_cons_cons]
      rintro (h' | ⟨h1, h2⟩)
      · rcases h with h | ⟨h, _⟩ <;> omega
      · rcases h with h | ⟨_, h⟩
        · omega
        · rw [ih ys h] at h2; exact Bool.noConfusion h2

theorem strLt_le_trans (a b c : Str) (h1 : strLt b a = false) (h2 : strLt c b = false) :
    strLt c a = false := by
  induction a generalizing b c with
  | nil => cases c <;> rfl
  | cons x xs ih =>
    cases b with
    | nil => simp [strLt] at h1
    | cons y ys =>
      cases c with
      | nil => simp [strLt] at h2
      | cons z zs =>
        rw [← Bool.not_eq_true, strLt_cons_cons] at h1 h2 ⊢
        rintro (h | ⟨h, h'⟩)
        · by_cases hxy : y.toNat < x.toNat
          · exact h1 (Or.inl hxy)
          · by_cases hyz : z.toNat < y.toNat
            · exact h2 (Or.inl hyz)
            · omega
        · by_cases hxy : y.toNat < x.toNat
          · exact h1 (Or.inl hxy)
          · by_cases hyz : z.toNat < y.toNat
            · exact h2 (Or.inl hyz)
            · have e1 : y.toNat = x.toNat := by omega
              have e2 : z.toNat = y.toNat := by omega
              have g1 : strLt ys xs = false := by
                rw [← Bool.not_eq_true]; exact fun g => h1 (Or.inr ⟨e1, g⟩)
              have g2 : strLt zs ys = false := by
                rw [← Bool.not_eq_true]; exact fun g => h2 (Or.inr ⟨e2, g⟩)
              rw [ih ys zs g1 g2] at h'
              exact Bool.noConfusion h'

theorem perm_insertSorted (x : Str) (l : List Str) : (insertSorted x l).Perm (x :: l) := by
  induction l with
  | nil => exact List.Perm.refl _
  | cons y ys ih =>
    by_cases h : strLt y x = true
    · simp only [insertSorted, h, if_true]
      exact (List.Perm.cons y ih).trans (List.Perm.swap x y ys)
    · simp only [insertSorted, h, if_false]
      exact List.Perm.refl _

theorem perm_sortStrings (l : List Str) : (sortStrings l).Perm l := by
  induction l with
  | nil => exact List.Perm.refl _
  | cons x xs ih =>
    exact (perm_insertSorted x (sortStrings xs)).trans (List.Perm.cons x ih)

theorem ascending_insertSorted (x : Str) (l : List Str) (h : Ascending l) :
    Ascending (insertSorted x l) := by
  induction l with
  | nil => simp [insertSorted, Ascending]
  | cons y ys ih =>
    unfold Ascending at h ih ⊢
    rw [List.pairwise_cons] at h
    by_cases hyx : strLt y x = true
    · simp only [insertSorted, hyx, if_true]
      rw [List.pairwise_cons]
      refine ⟨?_, ih h.2⟩
      intro z hz
      rcases List.mem_cons.1 ((perm_insertSorted x ys).mem_iff.1 hz) with hz | hz
      · subst hz; exact strLt_asymm _ _ hyx
      · exact h.1 z hz
    · have hle : strLt y x = false := by simpa using hyx
      simp only [insertSorted, hle, Bool.false_eq_true, if_false]
      rw [List.pairwise_cons]
      refine ⟨?_, List.pairwise_cons.2 h⟩
      intro z hz
      rcases List.mem_cons.1 hz with hz | hz
      · subst hz; exact hle
      · exact strLt_le_trans _ _ _ hle (h.1 z hz)

theorem ascending_sortStrings (l : List Str) : Ascending (sortStrings l) := by
  induction l with
  | nil => simp [sortStrings, Ascending]
  | cons x xs ih => exact ascending_insertSorted x _ ih

theorem foldl_groupStep (imports : List Str) (g : ImportGroups) :
    imports.foldl groupStep g =
      ⟨g.reactImports ++ frameworkBucket imports,
        g.thirdPartyImports ++ otherBucket imports,
        g.localImports ++ relativeBucket imports⟩ := by
  induction imports generalizing g with
  | nil => simp [frameworkBucket, otherBucket, relativeBucket]
  | cons x xs ih =>
    rw [List.foldl_cons, ih]
    unfold groupStep frameworkBucket otherBucket relativeBucket
    by_cases h1 : stringsContains x "react".toList = true
    · simp only [h1, if_true, List.filter_cons, Bool.not_true, Bool.false_and,
        Bool.false_eq_true, if_false, List.append_assoc, List.singleton_append]
    · by_cases h2 : stringsHasPrefix x ".".toList = true
      · simp only [h1, h2, if_true, if_false, List.filter_cons, Bool.not_true, Bool.not_false,
          Bool.and_false, Bool.true_and, Bool.and_true, Bool.false_eq_true,
          Bool.not_eq_true, List.append_assoc, List.singleton_append]
      · simp only [h1, h2, if_false, List.filter_cons, List.append_assoc,
          List.singleton_append]
        simp [h1, h2]

theorem allImports_eq (imports : List Str) :
    allImports imports = sortStrings (frameworkBucket imports) ++
      sortStrings (otherBucket imports) ++ sortStrings (relativeBucket imports) := by
  unfold allImports
  rw [foldl_groupStep]
  simp

theorem buckets_perm (imports : List Str) :
    (frameworkBucket imports ++ otherBucket imports ++ relativeBucket imports).Perm imports := by
  induction imports with
  | nil => simp [frameworkBucket, otherBucket, relativeBucket]
  | cons x xs ih =>
    unfold frameworkBucket otherBucket relativeBucket at ih ⊢
    by_cases h1 : stringsContains x "react".toList = true
    · simp only [List.filter_cons, h1, if_true, Bool.not_true, Bool.false_and,
        Bool.false_eq_true, if_false, List.cons_append]
      exact List.Perm.cons x ih
    · have h1' : stringsContains x "react".toList = false := by simpa using h1
      by_cases h2 : stringsHasPrefix x ".".toList = true
      · simp only [List.filter_cons, h1', h2, Bool.not_false, Bool.not_true, Bool.true_and,
          Bool.and_false, Bool.false_eq_true, if_false, if_true]
        refine List.Perm.trans ?_ (List.Perm.cons x ih)
        exact List.perm_middle
      · have h2' : stringsHasPrefix x ".".toList = false := by simpa using h2
        simp only [List.filter_cons, h1', h2', Bool.not_false, Bool.true_and,
          Bool.and_true, Bool.false_eq_true, if_false, if_true, Bool.and_false]
        refine List.Perm.trans ?_ (List.Perm.cons x ih)
        rw [List.append_assoc, List.append_assoc]
        exact List.perm_middle

/-- C3. For a non-empty list of import strings, the list `sortImports`
substitutes into the text is `sorted(A) ++ sorted(B) ++ sorted(C)`: `A` the
strings containing `react`, `C` the remaining strings that start with `.`,
`B` the others, each bucket in ascending order and a rearrangement of its
bucket; the whole is a rearrangement of the input, duplicates kept. -/
theorem C3_sortImports_partition_sort (uni : Char → Bool) (content : Str) (imports : List Str)
    (hne : imports ≠ []) :
    sortImports uni content imports =
      ReplaceAllString uni importSection content
        (stringsJoin "\n".toList (allImports imports) ++ "\n\n".toList) ∧
    allImports imports = sortStrings (frameworkBucket imports) ++
      sortStrings (otherBucket imports) ++ sortStrings (relativeBucket imports) ∧
    (Ascending (sortStrings (frameworkBucket imports)) ∧
      (sortStrings (frameworkBucket imports)).Perm (frameworkBucket imports)) ∧
    (Ascending (sortStrings (otherBucket imports)) ∧
      (sortStrings (otherBucket imports)).Perm (otherBucket imports)) ∧
    (Ascending (sortStrings (relativeBucket imports)) ∧
      (sortStrings (relativeBucket imports)).Perm (relativeBucket imports)) ∧
    (allImports imports).Perm imports := by
  refine ⟨?_, allImports_eq imports, ⟨ascending_sortStrings _, perm_sortStrings _⟩,
    ⟨ascending_sortStrings _, perm_sortStrings _⟩,
    ⟨ascending_sortStrings _, perm_sortStrings _⟩, ?_⟩
  · have : ¬ imports.length = 0 := by
      intro h; exact hne (List.length_eq_zero.1 h)
    simp only [sortImports, this, if_false]
  · rw [allImports_eq]
    exact (((perm_sortStrings _).append (perm_sortStrings _)).append
      (perm_sortStrings _)).trans (buckets_perm imports)

/-- C3 at the input of the specification: `["./c", "react-router", "lodash"]`
is ordered as `["react-router", "lodash", "./c"]`. -/
theorem C3_sortImports_witness :
    allImports ["./c".toList, "react-router".toList, "lodash".toList] =
      ["react-router".toList, "lodash".toList, "./c".toList] ∧
    (allImports ["./c".toList, "react-router".toList, "lodash".toList]).Perm
      ["./c".toList, "react-router".toList, "lodash".toList] :=
  ⟨by decide,
    (C3_sortImports_partition_sort asciiOnly []
      ["./c".toList, "react-router".toList, "lodash".toList] (by decide)).2.2.2.2.2⟩

/-! ## Dependency check -/

theorem keys_mapIncr (x : Str) (m : List (Str × Nat)) :
    (mapIncr x m).map Prod.fst =
      if x ∈ m.map Prod.fst then m.map Prod.fst else m.map Prod.fst ++ [x] := by
  induction m with
  | nil => simp [mapIncr]
  | cons e rest ih =>
    obtain ⟨k, n⟩ := e
    by_cases h : k = x
    · subst h; simp [mapIncr]
    · have h' : ¬ x = k := fun g => h g.symm
      simp only [mapIncr, h, if_false, List.map_cons, ih, List.mem_cons, h', false_or]
      by_cases hm : x ∈ rest.map Prod.fst
      · simp [hm]
      · simp [hm]

theorem mem_mapIncr (x : Str) (m : List (Str × Nat)) (hnd : (m.map Prod.fst).Nodup)
    (k : Str) (n : Nat) :
    ((k, n) ∈ mapIncr x m ↔
      (k ≠ x ∧ (k, n) ∈ m) ∨ (k = x ∧ x ∉ m.map Prod.fst ∧ n = 1) ∨
        (k = x ∧ ∃ j, (x, j) ∈ m ∧ n = j + 1)) := by
  induction m with
  | nil => simp [mapIncr]
  | cons e rest ih =>
    obtain ⟨k0, n0⟩ := e
    rw [List.map_cons, List.nodup_cons] at hnd
    by_cases h : k0 = x
    · subst h
      have hrest : ∀ j, (k0, j) ∉ rest := fun j hj =>
        hnd.1 (List.mem_map.2 ⟨(k0, j), hj, rfl⟩)
      have e : mapIncr k0 ((k0, n0) :: rest) = (k0, n0 + 1) :: rest := by simp [mapIncr]
      rw [e]
      constructor
      · intro hmem
        rcases List.mem_cons.1 hmem with heq | hm
        · obtain ⟨rfl, rfl⟩ := Prod.mk.inj heq
          exact Or.inr (Or.inr ⟨rfl, n0, List.mem_cons_self _ _, rfl⟩)
        · have hk : k ≠ k0 := by
            rintro rfl; exact hrest n hm
          exact Or.inl ⟨hk, List.mem_cons_of_mem _ hm⟩
      · rintro (⟨hk, h1⟩ | ⟨_, h1, _⟩ | ⟨rfl, j, h1, rfl⟩)
        · rcases List.mem_cons.1 h1 with h1 | h1
          · exact absurd (Prod.mk.inj h1).1 hk
          · exact List.mem_cons_of_mem _ h1
        · exact absurd (List.mem_cons_self _ _) h1
        · rcases List.mem_cons.1 h1 with h1 | h1
          · rw [(Prod.mk.inj h1).2]; exact List.mem_cons_self _ _
          · exact absurd h1 (hrest j)
    · have h' : ¬ x = k0 := fun g => h g.symm
      simp only [mapIncr, h, if_false, List.mem_cons, Prod.mk.injEq, ih hnd.2, List.map_cons,
        h', false_or, false_and]
      constructor
      · rintro (⟨rfl, rfl⟩ | ⟨hk, hmem⟩ | hr | hr)
        · exact Or.inl ⟨h, Or.inl ⟨rfl, rfl⟩⟩
        · exact Or.inl ⟨hk, Or.inr hmem⟩
        · exact Or.inr (Or.inl hr)
        · exact Or.inr (Or.inr hr)
      · rintro (⟨hk, h1 | h1⟩ | hr | hr)
        · exact Or.inl h1
        · exact Or.inr (Or.inl ⟨hk, h1⟩)
        · exact Or.inr (Or.inr (Or.inl hr))
        · exact Or.inr (Or.inr (Or.inr hr))

theorem countsOf_mem_keys (m : List (Str × Nat)) (l : List Str) (h : CountsOf m l) (x : Str) :
    (x ∈ m.map Prod.fst ↔ 0 < l.count x) := by
  constructor
  · intro hx
    obtain ⟨⟨k, n⟩, hmem, rfl⟩ := List.mem_map.1 hx
    have := (h.2 k n).1 hmem
    show 0 < List.count k l
    omega
  · intro hx
    exact List.mem_map.2 ⟨(x, l.count x), (h.2 x _).2 ⟨hx, rfl⟩, rfl⟩

theorem countsOf_mapIncr (m : List (Str × Nat)) (l : List Str) (h : CountsOf m l) (x : Str) :
    CountsOf (mapIncr x m) (l ++ [x]) := by
  have hkeys := countsOf_mem_keys m l h x
  refine ⟨?_, ?_⟩
  · rw [keys_mapIncr]
    by_cases hx : x ∈ m.map Prod.fst
    · simp only [hx, if_true]; exact h.1
    · simp only [hx, if_false]
      exact List.Nodup.append h.1 (List.nodup_singleton x) (by simpa using hx)
  · intro k n
    rw [mem_mapIncr x m h.1 k n, List.count_append]
    by_cases hk : k = x
    · subst hk
      have hc : List.count k [k] = 1 := by simp
      rw [hc]
      constructor
      · rintro (⟨hne, _⟩ | ⟨_, hnot, rfl⟩ | ⟨_, j, hj, rfl⟩)
        · exact absurd rfl hne
        · have : ¬ 0 < l.count k := fun g => hnot (hkeys.2 g)
          omega
        · have := (h.2 k j).1 hj
          omega
      · rintro ⟨_, hn⟩
        by_cases hz : 0 < l.count k
        · exact Or.inr (Or.inr ⟨rfl, l.count k, (h.2 k _).2 ⟨hz, rfl⟩, hn⟩)
        · refine Or.inr (Or.inl ⟨rfl, fun g => hz (hkeys.1 g), ?_⟩)
          omega
    · have hc : List.count k [x] = 0 := by
        rw [List.count_eq_zero]; simpa using hk
      rw [hc, Nat.add_zero, h.2 k n]
      constructor
      · rintro (⟨_, hh⟩ | ⟨he, _⟩ | ⟨he, _⟩)
        · exact hh
        · exact absurd he hk
        · exact absurd he hk
      · intro hh; exact Or.inl ⟨hk, hh⟩

theorem countsOf_foldl (l : List Str) (m : List (Str × Nat)) (l0 : List Str)
    (h : CountsOf m l0) : CountsOf (l.foldl (fun m imp => mapIncr imp m) m) (l0 ++ l) := by
  induction l generalizing m l0 with
  | nil => simpa using h
  | cons x xs ih =>
    have := ih (mapIncr x m) (l0 ++ [x]) (countsOf_mapIncr m l0 h x)
    simpa using this

theorem countImports_foldl (components : List Component) (m : List (Str × Nat)) :
    components.foldl (fun m comp => comp.Imports.foldl (fun m imp => mapIncr imp m) m) m =
      (allImportStrings components).foldl (fun m imp => mapIncr imp m) m := by
  induction components generalizing m with
  | nil => rfl
  | cons c cs ih =>
    simp only [List.foldl_cons, allImportStrings, List.flatMap_cons, List.foldl_append]
    exact ih _

theorem countsOf_countImports (components : List Component) :
    CountsOf (countImports components) (allImportStrings components) := by
  unfold countImports
  rw [countImports_foldl]
  have := countsOf_foldl (allImportStrings components) [] []
    ⟨by simp, by intro k n; simp; omega⟩
  simpa using this

theorem countImports_perm (components : List Component) :
    (countImports components).Perm
      ((allImportStrings components).dedup.map fun k =>
        (k, (allImportStrings components).count k)) := by
  have h := countsOf_countImports components
  rw [List.perm_ext_iff_of_nodup (List.Nodup.of_map _ h.1)
    ((List.nodup_dedup _).map (fun a b hab => (Prod.mk.injEq _ _ _ _ ▸ hab).1))]
  rintro ⟨k, n⟩
  rw [h.2 k n, List.mem_map]
  constructor
  · rintro ⟨hpos, hn⟩
    refine ⟨k, List.mem_dedup.2 (List.count_pos_iff.1 (hn ▸ hpos)), ?_⟩
    rw [hn]
  · rintro ⟨k', hk', heq⟩
    rw [Prod.mk.injEq] at heq
    obtain ⟨rfl, rfl⟩ := heq
    exact ⟨List.count_pos_iff.2 (List.mem_dedup.1 hk'), rfl⟩

theorem rangeImports_foldl (total : Nat) (entries : List (Str × Nat)) (acc : List Str) :
    entries.foldl
      (fun suggestions e =>
        if e.2 > total / 2 && stringsContains e.1 "useState".toList then
          suggestions ++ [dependencySuggestion e.1]
        else suggestions) acc =
      acc ++ (entries.filter fun e =>
        decide (e.2 > total / 2) && stringsContains e.1 "useState".toList).map
        fun e => dependencySuggestion e.1 := by
  induction entries generalizing acc with
  | nil => simp
  | cons e es ih =>
    rw [List.foldl_cons, ih]
    simp only [List.filter_cons]
    by_cases h : (decide (e.2 > total / 2) && stringsContains e.1 "useState".toList) = true
    · simp only [h, if_true, List.map_cons, List.append_assoc, List.singleton_append]
    · simp only [h, Bool.false_eq_true, if_false]

theorem rangeImports_eq (total : Nat) (entries : List (Str × Nat)) :
    rangeImports total entries =
      (entries.filter fun e =>
        decide (e.2 > total / 2) && stringsContains e.1 "useState".toList).map
        fun e => dependencySuggestion e.1 := by
  unfold rangeImports
  rw [rangeImports_foldl]
  rfl

theorem dependencySuggestion_injective (a b : Str)
    (h : dependencySuggestion a = dependencySuggestion b) : a = b := by
  unfold dependencySuggestion at h
  rw [List.append_assoc, List.append_assoc] at h
  exact List.append_cancel_right (List.append_cancel_left h)

theorem AnalyzeDependencies_perm (components : List Component) (out : List Str)
    (h : AnalyzeDependencies components out) :
    out.Perm (((allImportStrings components).dedup.filter
      (isCommonStateImport components)).map dependencySuggestion) := by
  obtain ⟨entries, hperm, rfl⟩ := h
  rw [rangeImports_eq]
  have h1 := ((hperm.trans (countImports_perm components)).filter fun e =>
    decide (e.2 > components.length / 2) && stringsContains e.1 "useState".toList).map
      fun e => dependencySuggestion e.1
  refine h1.trans ?_
  rw [List.filter_map, List.map_map]
  exact List.Perm.refl _

theorem AnalyzeDependenciesInOrder_threeRecords :
    AnalyzeDependenciesInOrder threeRecords =
      [dependencySuggestion "import { useState } from 'react'".toList] := by
  decide

/-- C9. Whatever order the map is visited in, `AnalyzeDependencies` returns
(and it does return) a rearrangement of the list holding one suggestion for
each distinct import string that occurs, over all records, more than
`floor(len(records) / 2)` times and contains `useState`; distinct imports give
distinct suggestions.  No record, or no import containing `useState`, gives no
suggestion. -/
theorem C9_AnalyzeDependencies_multiset (components : List Component) :
    AnalyzeDependencies components (AnalyzeDependenciesInOrder components) ∧
    (∀ out, AnalyzeDependencies components out →
      out.Perm (((allImportStrings components).dedup.filter
        (isCommonStateImport components)).map dependencySuggestion)) ∧
    (∀ a b, dependencySuggestion a = dependencySuggestion b → a = b) ∧
    (∀ out, AnalyzeDependencies [] out → out = []) ∧
    ((∀ imp ∈ allImportStrings components, stringsContains imp "useState".toList = false) →
      ∀ out, AnalyzeDependencies components out → out = []) := by
  refine ⟨⟨_, List.Perm.refl _, rfl⟩, AnalyzeDependencies_perm components,
    dependencySuggestion_injective, ?_, ?_⟩
  · intro out h
    have := AnalyzeDependencies_perm [] out h
    simpa [allImportStrings] using this
  · intro hno out h
    have hp := AnalyzeDependencies_perm components out h
    have he : (allImportStrings components).dedup.filter (isCommonStateImport components)
        = [] := by
      rw [List.filter_eq_nil_iff]
      intro imp himp
      rw [List.mem_dedup] at himp
      simp only [isCommonStateImport, hno imp himp, Bool.and_false, Bool.false_eq_true,
        not_false_eq_true]
    rw [he] at hp
    simpa using hp

/-! ## The backtracking search: general facts -/

theorem stringsContains_iff (s sub : Str) : stringsContains s sub = true ↔ sub <:+: s := by
  induction s with
  | nil =>
    cases sub with
    | nil => simp [stringsContains]
    | cons c cs => simp [stringsContains]
  | cons c cs ih =>
    rw [stringsContains, Bool.or_eq_true, ih, stringsHasPrefix, List.isPrefixOf_iff_prefix,
      List.infix_cons_iff]

theorem run_cls_cons (p : Char → Bool) (c : Char) (cs : Str) (caps : List (Nat × Str)) :
    run (.cls p) ⟨c :: cs, caps⟩ = if p c then [⟨cs, caps⟩] else [] := rfl

theorem run_lit_append (l t : Str) (caps : List (Nat × Str)) :
    run (Re.lit l) ⟨l ++ t, caps⟩ = [⟨t, caps⟩] := by
  induction l with
  | nil => rfl
  | cons c cs ih =>
    simp only [Re.lit, run, List.cons_append, beq_self_eq_true, if_true, List.flatMap_cons,
      List.flatMap_nil, List.append_nil]
    exact ih

theorem run_lit_mismatch (c d : Char) (l t : Str) (caps : List (Nat × Str)) (h : c ≠ d) :
    run (Re.lit (c :: l)) ⟨d :: t, caps⟩ = [] := by
  have hb : (d == c) = false := by simpa using fun g => h g.symm
  simp [Re.lit, run, hb]

theorem mem_run_lit (l : Str) (st st' : MState) (h : st' ∈ run (Re.lit l) st) :
    st.rest = l ++ st'.rest ∧ st'.caps = st.caps := by
  induction l generalizing st with
  | nil =>
    simp only [Re.lit, run, List.mem_singleton] at h
    subst h; exact ⟨rfl, rfl⟩
  | cons c cs ih =>
    obtain ⟨rest, caps⟩ := st
    cases rest with
    | nil => simp [Re.lit, run] at h
    | cons d ds =>
      simp only [Re.lit, run, List.mem_flatMap] at h
      obtain ⟨mid, hmid, hst'⟩ := h
      by_cases hd : (d == c) = true
      · simp only [hd, if_true, List.mem_singleton] at hmid
        subst hmid
        have := ih _ hst'
        have hdc : d = c := by simpa using hd
        subst hdc
        exact ⟨by rw [List.cons_append, ← this.1], this.2⟩
      · simp [hd] at hmid

theorem starRun_stop (p : Char → Bool) (greedy : Bool) (fuel : Nat) (st : MState)
    (h : ∀ c cs, st.rest = c :: cs → p c = false) :
    starRun (run (.cls p)) greedy fuel st = [st] := by
  cases fuel with
  | zero => rfl
  | succ n =>
    obtain ⟨rest, caps⟩ := st
    have hb : run (.cls p) ⟨rest, caps⟩ = [] := by
      cases rest with
      | nil => rfl
      | cons c cs => rw [run_cls_cons, h c cs rfl]; rfl
    cases greedy <;> simp [starRun, hb]

theorem starRun_step (p : Char → Bool) (greedy : Bool) (fuel : Nat) (c : Char) (cs : Str)
    (caps : List (Nat × Str)) (h : p c = true) :
    starRun (run (.cls p)) greedy (fuel + 1) ⟨c :: cs, caps⟩ =
      if greedy then starRun (run (.cls p)) greedy fuel ⟨cs, caps⟩ ++ [⟨c :: cs, caps⟩]
      else ⟨c :: cs, caps⟩ :: starRun (run (.cls p)) greedy fuel ⟨cs, caps⟩ := by
  simp [starRun, run_cls_cons, h]

theorem mem_starRun_cls (p : Char → Bool) (greedy : Bool) (fuel : Nat) (st st' : MState)
    (h : st' ∈ starRun (run (.cls p)) greedy fuel st) :
    ∃ a : Str, st.rest = a ++ st'.rest ∧ a.all p = true ∧ st'.caps = st.caps := by
  induction fuel generalizing st with
  | zero =>
    simp only [starRun, List.mem_singleton] at h
    subst h; exact ⟨[], rfl, rfl, rfl⟩
  | succ n ih =>
    obtain ⟨rest, caps⟩ := st
    cases rest with
    | nil =>
      rw [starRun_stop p greedy _ _ (by intro c cs hc; cases hc)] at h
      rw [List.mem_singleton] at h
      subst h; exact ⟨[], rfl, rfl, rfl⟩
    | cons c cs =>
      by_cases hp : p c = true
      · rw [starRun_step p greedy n c cs caps hp] at h
        have key : st' = ⟨c :: cs, caps⟩ ∨ st' ∈ starRun (run (.cls p)) greedy n ⟨cs, caps⟩ := by
          cases greedy
          · simpa using h
          · simp only [if_true, List.mem_append, List.mem_singleton] at h
            exact h.symm
        rcases key with h1 | h1
        · subst h1; exact ⟨[], rfl, rfl, rfl⟩
        · obtain ⟨a, h2, h3, h4⟩ := ih _ h1
          refine ⟨c :: a, ?_, ?_, h4⟩
          · simp only [List.cons_append]; rw [← h2]
          · simp [hp, h3]
      · have hp' : p c = false := by simpa using hp
        rw [starRun_stop p greedy _ _ (by intro d ds hd; cases hd; exact hp')] at h
        rw [List.mem_singleton] at h
        subst h; exact ⟨[], rfl, rfl, rfl⟩

theorem mem_run_plus_cls (p : Char → Bool) (greedy : Bool) (st st' : MState)
    (h : st' ∈ run (Re.plus (.cls p) greedy) st) :
    ∃ a : Str, st.rest = a ++ st'.rest ∧ a.all p = true ∧ a ≠ [] ∧ st'.caps = st.caps := by
  obtain ⟨rest, caps⟩ := st
  simp only [Re.plus, run, List.mem_flatMap] at h
  obtain ⟨mid, hmid, hst'⟩ := h
  cases rest with
  | nil => simp at hmid
  | cons c cs =>
    by_cases hp : p c = true
    · simp only [hp, if_true, List.mem_singleton] at hmid
      subst hmid
      obtain ⟨a, h2, h3, h4⟩ := mem_starRun_cls p greedy _ _ _ hst'
      refine ⟨c :: a, ?_, ?_, by simp, h4⟩
      · simp only [List.cons_append]; rw [← h2]
      · simp [hp, h3]
    · simp [hp] at hmid

theorem searchFrom_bounds (re : Re) (s : Str) (pos : Nat) (a : Loc)
    (h : searchFrom re s pos = some a) : pos ≤ a.start ∧ a.start ≤ a.stop := by
  induction s generalizing pos with
  | nil =>
    simp only [searchFrom] at h
    split at h
    · simp only [Option.some.injEq] at h; subst h; exact ⟨le_refl _, le_refl _⟩
    · cases h
  | cons c cs ih =>
    simp only [searchFrom] at h
    split at h
    · simp only [Option.some.injEq] at h; subst h; exact ⟨le_refl _, Nat.le_add_right _ _⟩
    · have := ih _ h
      omega

theorem searchFrom_caps (re : Re) (s : Str) (pos : Nat) (a : Loc)
    (h : searchFrom re s pos = some a) :
    ∃ t st, st ∈ run re ⟨t, []⟩ ∧ a.caps = st.caps ∧ a.text = t.take (t.length - st.rest.length) := by
  induction s generalizing pos with
  | nil =>
    simp only [searchFrom] at h
    split at h
    · rename_i st hst
      simp only [Option.some.injEq] at h; subst h
      exact ⟨[], st, List.mem_of_mem_head? hst, rfl, by simp⟩
    · cases h
  | cons c cs ih =>
    simp only [searchFrom] at h
    split at h
    · rename_i st hst
      simp only [Option.some.injEq] at h; subst h
      exact ⟨c :: cs, st, List.mem_of_mem_head? hst, rfl, rfl⟩
    · exact ih _ h

/-! ## The component name is made of word characters -/

theorem mem_run_cap_word1 (i : Nat) (st st' : MState) (h : st' ∈ run (.cap i word1) st) :
    ∃ a : Str, a.all isWordClass = true ∧ st'.caps = (i, a) :: st.caps := by
  simp only [run, List.mem_map] at h
  obtain ⟨mid, hmid, rfl⟩ := h
  obtain ⟨a, h1, h2, _, h4⟩ := mem_run_plus_cls isWordClass true st mid hmid
  refine ⟨a, h2, ?_⟩
  simp only [h4, h1, List.length_append, Nat.add_sub_cancel, List.take_left']

theorem mem_run_spaces1 (st st' : MState) (h : st' ∈ run spaces1 st) : st'.caps = st.caps := by
  obtain ⟨_, _, _, _, h4⟩ := mem_run_plus_cls isSpaceClass true st st' h
  exact h4

theorem mem_run_alt (a b : Re) (st st' : MState) :
    st' ∈ run (.alt a b) st ↔ st' ∈ run a st ∨ st' ∈ run b st := by
  rw [run, List.mem_append]

theorem mem_run_cat (a b : Re) (st st' : MState) :
    st' ∈ run (.cat a b) st ↔ ∃ mid, mid ∈ run a st ∧ st' ∈ run b mid := by
  rw [run, List.mem_flatMap]

theorem mem_run_componentRegex (s : Str) (st : MState)
    (h : st ∈ run componentRegex ⟨s, []⟩) :
    ∃ i a, a.all isWordClass = true ∧ st.caps = [(i, a)] := by
  unfold componentRegex at h
  rw [mem_run_alt, mem_run_cat, mem_run_cat] at h
  simp only [mem_run_cat] at h
  rcases h with ⟨m1, h1, m2, h2, h3⟩ | ⟨m1, h1, m2, h2, h3⟩
  · have e1 := (mem_run_lit _ _ _ h1).2
    have e2 := mem_run_spaces1 _ _ h2
    obtain ⟨a, ha, hc⟩ := mem_run_cap_word1 1 m2 st h3
    exact ⟨1, a, ha, by rw [hc, e2, e1]⟩
  · have e1 := (mem_run_lit _ _ _ h1).2
    have e2 := mem_run_spaces1 _ _ h2
    obtain ⟨a, ha, hc⟩ := mem_run_cap_word1 2 m2 st h3
    exact ⟨2, a, ha, by rw [hc, e2, e1]⟩

theorem groupText_componentRegex (s : Str) (pos : Nat) (m : Loc)
    (h : searchFrom componentRegex s pos = some m) (i : Nat) (hi : i ≠ 0) :
    (groupText m i).all isWordClass = true := by
  obtain ⟨t, st, hst, hcaps, _⟩ := searchFrom_caps _ _ _ _ h
  obtain ⟨j, a, ha, hc⟩ := mem_run_componentRegex t st hst
  simp only [groupText, hi, if_false, hcaps, hc, capLookup]
  by_cases hj : j = i
  · simp [hj, ha]
  · simp [hj]

theorem isPlainName_extractName (content : Str) : isPlainName (extractName content) = true := by
  unfold extractName FindStringSubmatch doExecute isPlainName
  cases h : searchFrom componentRegex (List.drop 0 content) 0 with
  | none => decide
  | some m =>
    have g1 := groupText_componentRegex _ _ m h 1 (by decide)
    have g2 := groupText_componentRegex _ _ m h 2 (by decide)
    have e1 : ((List.range (2 + 1)).map (groupText m)).getD 1 [] = groupText m 1 := rfl
    have e2 : ((List.range (2 + 1)).map (groupText m)).getD 2 [] = groupText m 2 := rfl
    simp only [e1, e2]
    split
    · split
      · exact g1
      · split
        · exact g2
        · decide
    · decide

/-! ## Templates without a group reference -/

theorem cutDollar_none (t : Str) (h : '$' ∉ t) : cutDollar t = none := by
  induction t with
  | nil => rfl
  | cons c cs ih =>
    have hc : ¬ c = '$' := fun g => h (g ▸ List.mem_cons_self _ _)
    have hcs : '$' ∉ cs := fun g => h (List.mem_cons_of_mem _ g)
    simp [cutDollar, hc, ih hcs]

theorem cutDollar_append (pre post : Str) (h : '$' ∉ pre) :
    cutDollar (pre ++ '$' :: post) = some (pre, post) := by
  induction pre with
  | nil => simp [cutDollar]
  | cons c cs ih =>
    have hc : ¬ c = '$' := fun g => h (g ▸ List.mem_cons_self _ _)
    have hcs : '$' ∉ cs := fun g => h (List.mem_cons_of_mem _ g)
    simp [cutDollar, hc, ih hcs]

theorem expand_plain (uni : Char → Bool) (m : Loc) (template dst : Str)
    (h : '$' ∉ template) : expand uni m template dst = dst ++ template := by
  simp [expand, expandLoop, cutDollar_none template h]

theorem not_dollar_of_plain (name : Str) (h : isPlainName name = true) : '$' ∉ name := by
  intro hmem
  have := List.all_eq_true.1 h _ hmem
  exact absurd this (by decide)

/-! ## `ReplaceAllString` with a template without a group reference -/

theorem replaceAllLoop_plain (uni : Char → Bool) (re : Re) (src repl : Str)
    (hrepl : '$' ∉ repl) (fuel lastMatchEnd searchPos : Nat) (buf : Str)
    (hle : lastMatchEnd ≤ searchPos) :
    ∃ out, replaceAllLoop uni re src repl fuel lastMatchEnd searchPos buf = buf ++ out ∧
      (out = src.drop lastMatchEnd ∨ repl <:+: out) := by
  induction fuel generalizing lastMatchEnd searchPos buf with
  | zero => exact ⟨_, rfl, Or.inl rfl⟩
  | succ n ih =>
    rw [replaceAllLoop]
    by_cases hpos : searchPos ≤ src.length
    · rw [if_pos hpos]
      cases hex : doExecute re src searchPos with
      | none => exact ⟨_, rfl, Or.inl rfl⟩
      | some a =>
        obtain ⟨hb1, hb2⟩ := searchFrom_bounds _ _ _ _ hex
        simp only [expand_plain uni a repl _ hrepl]
        have hnext : a.stop ≤
            (if searchPos + (if searchPos < src.length then 1 else 0) > a.stop then
              searchPos + (if searchPos < src.length then 1 else 0)
            else if searchPos + 1 > a.stop then searchPos + 1 else a.stop) := by
          generalize (if searchPos < src.length then 1 else 0) = w
          by_cases h1 : searchPos + w > a.stop
          · rw [if_pos h1]; omega
          · rw [if_neg h1]
            by_cases h2 : searchPos + 1 > a.stop
            · rw [if_pos h2]; omega
            · rw [if_neg h2]
        by_cases hc : (decide (a.stop > lastMatchEnd) || a.start == 0) = true
        · rw [if_pos hc]
          obtain ⟨out, ho, _⟩ := ih a.stop _
            (buf ++ List.take (a.start - lastMatchEnd) (List.drop lastMatchEnd src) ++ repl) hnext
          refine ⟨List.take (a.start - lastMatchEnd) (List.drop lastMatchEnd src) ++ repl ++ out,
            ?_, Or.inr ?_⟩
          · rw [ho]; simp [List.append_assoc]
          · exact ⟨List.take (a.start - lastMatchEnd) (List.drop lastMatchEnd src), out, rfl⟩
        · rw [if_neg hc]
          obtain ⟨out, ho, hout⟩ := ih a.stop _
            (buf ++ List.take (a.start - lastMatchEnd) (List.drop lastMatchEnd src)) hnext
          simp only [Bool.or_eq_true, decide_eq_true_eq, not_or, not_lt] at hc
          have h1 : a.start - lastMatchEnd = 0 := by omega
          have h2 : a.stop = lastMatchEnd := by omega
          refine ⟨out, ?_, ?_⟩
          · rw [ho, h1]; simp
          · rw [← h2]; exact hout
    · rw [if_neg hpos]
      exact ⟨_, rfl, Or.inl rfl⟩

theorem ReplaceAllString_plain (uni : Char → Bool) (re : Re) (src repl : Str)
    (hrepl : '$' ∉ repl) :
    ReplaceAllString uni re src repl = src ∨ repl <:+: ReplaceAllString uni re src repl := by
  obtain ⟨out, ho, hout⟩ := replaceAllLoop_plain uni re src repl hrepl (src.length + 2) 0 0 []
    (le_refl _)
  unfold ReplaceAllString
  rw [ho]
  rcases hout with h | h
  · left; rw [h]; rfl
  · right; simpa using h

/-! ## The memoization wrap guards itself -/

theorem addMemo_contains_memo (uni : Char → Bool) (content name : Str)
    (hname : isPlainName name = true)
    (hno : stringsContains content "memo".toList = false) :
    ∃ T', addMemo uni content name = some T' ∧ stringsContains T' "memo".toList = true := by
  have hno' : stringsContains content "import { memo }".toList = false := by
    rw [← Bool.not_eq_true, stringsContains_iff] at hno ⊢
    intro h
    exact hno (List.IsInfix.trans ⟨"import \x7b ".toList, " \x7d".toList, rfl⟩ h)
  have hrepl : '$' ∉ "export default memo(".toList ++ name ++ ")".toList := by
    intro h
    rcases List.mem_append.1 h with h | h
    · rcases List.mem_append.1 h with h | h
      · exact absurd h (by decide)
      · exact not_dollar_of_plain name hname h
    · exact absurd h (by decide)
  unfold addMemo
  simp only [hno', Bool.not_false, if_true, hname]
  refine ⟨_, rfl, ?_⟩
  rw [stringsContains_iff]
  rcases ReplaceAllString_plain uni (exportRegex name)
    ("import { memo } from 'react';\n".toList ++ content)
    ("export default memo(".toList ++ name ++ ")".toList) hrepl with h | h
  · rw [h]
    exact ⟨"import \x7b ".toList, " \x7d from 'react';\n".toList ++ content, rfl⟩
  · refine List.IsInfix.trans ?_ h
    exact ⟨"export default ".toList, "(".toList ++ name ++ ")".toList, by simp⟩

/-- C6, amended. With arrow conversion and import sorting disabled, rewriting
is idempotent: the text written for the facts of `T` is defined, and rewriting
the facts extracted from that text writes it again unchanged. -/
theorem C6_rewrite_idempotent_memo_only (uni : Char → Bool) (config : RefactorConfig)
    (filePath T : Str) (harrow : config.UseArrowFuncs = false)
    (hsort : config.SortImports = false) :
    ∃ T', rewriteOf uni config filePath T = some T' ∧
      rewriteOf uni config filePath T' = some T' := by
  by_cases hm : (config.UseMemo && decide ((extractProps T).length > 2)
      && !stringsContains T "memo".toList) = true
  · have hno : stringsContains T "memo".toList = false := by
      simp only [Bool.and_eq_true, Bool.not_eq_true'] at hm
      exact hm.2
    obtain ⟨T', h1, h2⟩ := addMemo_contains_memo uni T (extractName T)
      (isPlainName_extractName T) hno
    refine ⟨T', ?_, ?_⟩
    · unfold rewriteOf refactoredContent
      simp only [parseContent, harrow, hsort, Bool.false_and, Bool.false_eq_true, if_false, hm,
        if_true, h1]
    · exact refactoredContent_noop uni config (parseContent filePath T') (Or.inl harrow)
        (Or.inr (Or.inr h2)) (Or.inl hsort)
  · have h0 : rewriteOf uni config filePath T = some T := by
      unfold rewriteOf refactoredContent
      simp only [parseContent, harrow, hsort, Bool.false_and, Bool.false_eq_true, if_false, hm]
    exact ⟨T, h0, h0⟩

/-- The amended C6 at a concrete input: a component with three props and a
default export, rewritten with only the memoization wrap enabled.  The first
pass adds the import of `memo` and wraps the export; the second writes the
same text. -/
theorem C6_rewrite_idempotent_witness :
    (∃ T', rewriteOf asciiOnly memoOnlyConfig "a.jsx".toList
        "function Foo() { return <div a=1 b=2 c=3/> }\nexport default Foo\n".toList = some T' ∧
      rewriteOf asciiOnly memoOnlyConfig "a.jsx".toList T' = some T') ∧
    rewriteOf asciiOnly memoOnlyConfig "a.jsx".toList
        "function Foo() { return <div a=1 b=2 c=3/> }\nexport default Foo\n".toList
      = some ("import { memo } from 'react';\n".toList ++
          "function Foo() { return <div a=1 b=2 c=3/> }\nexport default memo(Foo)\n".toList) :=
  ⟨C6_rewrite_idempotent_memo_only asciiOnly memoOnlyConfig "a.jsx".toList
    "function Foo() { return <div a=1 b=2 c=3/> }\nexport default Foo\n".toList rfl rfl,
    by decide!⟩

/-! ## ASCII templates do not consult the Unicode tables -/

theorem isNameRune_ascii (uni : Char → Bool) (c : Char) (h : c.toNat < 128) :
    isNameRune uni c = isNameRune asciiOnly c := by
  simp only [isNameRune, h, if_true]

theorem takeWhile_ascii (uni : Char → Bool) (s : Str) (h : ∀ c ∈ s, c.toNat < 128) :
    s.takeWhile (isNameRune uni) = s.takeWhile (isNameRune asciiOnly) := by
  induction s with
  | nil => rfl
  | cons c cs ih =>
    rw [List.takeWhile_cons, List.takeWhile_cons,
      isNameRune_ascii uni c (h c (List.mem_cons_self _ _)),
      ih fun d hd => h d (List.mem_cons_of_mem _ hd)]

theorem dropWhile_ascii (uni : Char → Bool) (s : Str) (h : ∀ c ∈ s, c.toNat < 128) :
    s.dropWhile (isNameRune uni) = s.dropWhile (isNameRune asciiOnly) := by
  induction s with
  | nil => rfl
  | cons c cs ih =>
    rw [List.dropWhile_cons, List.dropWhile_cons,
      isNameRune_ascii uni c (h c (List.mem_cons_self _ _)),
      ih fun d hd => h d (List.mem_cons_of_mem _ hd)]

theorem extract_ascii (uni : Char → Bool) (str : Str) (h : ∀ c ∈ str, c.toNat < 128) :
    extract uni str = extract asciiOnly str := by
  cases str with
  | nil => rfl
  | cons c0 tl =>
    have htl : ∀ c ∈ tl, c.toNat < 128 := fun d hd => h d (List.mem_cons_of_mem _ hd)
    unfold extract
    by_cases hb : (c0 == '{') = true
    · simp only [hb, if_true, takeWhile_ascii uni tl htl, dropWhile_ascii uni tl htl]
    · simp only [hb, Bool.false_eq_true, if_false, takeWhile_ascii uni (c0 :: tl) h,
        dropWhile_ascii uni (c0 :: tl) h]

theorem cutDollar_eq (t before after : Str) (h : cutDollar t = some (before, after)) :
    t = before ++ '$' :: after := by
  induction t generalizing before after with
  | nil => cases h
  | cons c cs ih =>
    rw [cutDollar] at h
    by_cases hc : c = '$'
    · rw [if_pos hc] at h
      simp only [Option.some.injEq, Prod.mk.injEq] at h
      rw [← h.1, ← h.2, hc]; rfl
    · rw [if_neg hc] at h
      cases hcs : cutDollar cs with
      | none => rw [hcs] at h; cases h
      | some p =>
        obtain ⟨b, a⟩ := p
        rw [hcs] at h
        simp only [Option.some.injEq, Prod.mk.injEq] at h
        rw [← h.1, ← h.2, List.cons_append, ← ih b a hcs]

theorem extract_rest_suffix (uni : Char → Bool) (str : Str) (e : Extracted)
    (h : extract uni str = some e) : e.rest <:+ str := by
  cases str with
  | nil => cases h
  | cons c0 tl =>
    unfold extract at h
    by_cases hb : (c0 == '{') = true
    · simp only [hb, if_true] at h
      by_cases hn : (List.takeWhile (isNameRune uni) tl).isEmpty = true
      · rw [if_pos hn] at h; cases h
      · rw [if_neg hn] at h
        split at h
        · rename_i rest hafter
          simp only [Option.some.injEq] at h
          subst h
          have h1 : ('}' :: rest) <:+ tl := hafter ▸ List.dropWhile_suffix _
          exact (List.suffix_cons _ _).trans (h1.trans (List.suffix_cons _ _))
        · cases h
    · simp only [hb, Bool.false_eq_true, if_false] at h
      by_cases hn : (List.takeWhile (isNameRune uni) (c0 :: tl)).isEmpty = true
      · rw [if_pos hn] at h; cases h
      · rw [if_neg hn] at h
        simp only [Option.some.injEq] at h
        subst h
        exact List.dropWhile_suffix _

theorem expandLoop_ascii (uni : Char → Bool) (m : Loc) (fuel : Nat) (template dst : Str)
    (h : ∀ c ∈ template, c.toNat < 128) :
    expandLoop uni m fuel template dst = expandLoop asciiOnly m fuel template dst := by
  induction fuel generalizing template dst with
  | zero => rfl
  | succ n ih =>
    rw [expandLoop, expandLoop]
    cases hcut : cutDollar template with
    | none => rfl
    | some p =>
      obtain ⟨before, after⟩ := p
      have heq := cutDollar_eq _ _ _ hcut
      have hafter : ∀ c ∈ after, c.toNat < 128 := by
        intro c hc
        apply h c
        rw [heq]
        exact List.mem_append_right _ (List.mem_cons_of_mem _ hc)
      simp only
      split
      · rename_i t
        exact ih _ _ fun c hc => hafter c (List.mem_cons_of_mem _ hc)
      · rw [← extract_ascii uni after hafter]
        cases hex : extract uni after with
        | none => exact ih _ _ hafter
        | some e =>
          have hrest : ∀ c ∈ e.rest, c.toNat < 128 := fun c hc =>
            hafter c ((extract_rest_suffix uni after e hex).subset hc)
          simp only
          split
          · exact ih _ _ hrest
          · exact ih _ _ hrest

theorem replaceAllLoop_ascii (uni : Char → Bool) (re : Re) (src repl : Str)
    (h : ∀ c ∈ repl, c.toNat < 128) (fuel lastMatchEnd searchPos : Nat) (buf : Str) :
    replaceAllLoop uni re src repl fuel lastMatchEnd searchPos buf =
      replaceAllLoop asciiOnly re src repl fuel lastMatchEnd searchPos buf := by
  induction fuel generalizing lastMatchEnd searchPos buf with
  | zero => rfl
  | succ n ih =>
    rw [replaceAllLoop, replaceAllLoop]
    split
    · cases doExecute re src searchPos with
      | none => rfl
      | some a =>
        simp only [expand, expandLoop_ascii uni a _ repl _ h]
        exact ih _ _ _
    · rfl

theorem ReplaceAllString_ascii (uni : Char → Bool) (re : Re) (src repl : Str)
    (h : isAsciiText repl = true) :
    ReplaceAllString uni re src repl = ReplaceAllString asciiOnly re src repl := by
  unfold ReplaceAllString
  apply replaceAllLoop_ascii
  intro c hc
  have := List.all_eq_true.1 h c hc
  simpa using this

/-! ## The fuel of the loops is never used up -/

theorem starRun_fuel_succ (body : MState → List MState) (greedy : Bool) (n : Nat) (st : MState)
    (h : st.rest.length ≤ n) : starRun body greedy (n + 1) st = starRun body greedy n st := by
  induction n generalizing st with
  | zero =>
    have hnil : (body st).filter (fun st' => decide (st'.rest.length < st.rest.length)) = [] := by
      rw [List.filter_eq_nil_iff]
      intro a _
      simp only [decide_eq_true_eq]
      omega
    simp only [starRun, hnil, List.flatMap_nil, List.nil_append]
    cases greedy <;> rfl
  | succ k ih =>
    have hcongr : ((body st).filter fun st' => decide (st'.rest.length < st.rest.length)).flatMap
          (starRun body greedy (k + 1))
        = ((body st).filter fun st' => decide (st'.rest.length < st.rest.length)).flatMap
          (starRun body greedy k) := by
      apply List.flatMap_congr
      intro a ha
      have := (List.mem_filter.1 ha).2
      simp only [decide_eq_true_eq] at this
      exact ih a (by omega)
    rw [starRun, starRun]
    simp only [hcongr]

theorem starRun_fuel (body : MState → List MState) (greedy : Bool) (st : MState) (k : Nat) :
    starRun body greedy (st.rest.length + k) st = starRun body greedy st.rest.length st := by
  induction k with
  | zero => rfl
  | succ j ih =>
    rw [← ih]
    exact starRun_fuel_succ body greedy _ st (Nat.le_add_right _ _)

theorem cutDollar_length (t before after : Str) (h : cutDollar t = some (before, after)) :
    after.length < t.length := by
  rw [cutDollar_eq t before after h]
  simp
  omega

theorem extract_rest_length (uni : Char → Bool) (str : Str) (e : Extracted)
    (h : extract uni str = some e) : e.rest.length ≤ str.length :=
  (extract_rest_suffix uni str e h).length_le

theorem expandLoop_fuel_succ (uni : Char → Bool) (m : Loc) (n : Nat) (template dst : Str)
    (h : template.length < n) :
    expandLoop uni m (n + 1) template dst = expandLoop uni m n template dst := by
  induction n generalizing template dst with
  | zero => omega
  | succ k ih =>
    rw [expandLoop, expandLoop]
    cases hcut : cutDollar template with
    | none => rfl
    | some p =>
      obtain ⟨before, after⟩ := p
      have hlen := cutDollar_length _ _ _ hcut
      simp only
      split
      · rename_i t
        exact ih _ _ (by simp only [List.length_cons] at hlen; omega)
      · cases hex : extract uni after with
        | none => exact ih _ _ (by omega)
        | some e =>
          have hr := extract_rest_length uni after e hex
          simp only
          split
          · exact ih _ _ (by omega)
          · exact ih _ _ (by omega)

theorem replaceAllLoop_fuel_succ (uni : Char → Bool) (re : Re) (src repl : Str)
    (n lastMatchEnd searchPos : Nat) (buf : Str) (h : src.length + 1 - searchPos < n) :
    replaceAllLoop uni re src repl (n + 1) lastMatchEnd searchPos buf =
      replaceAllLoop uni re src repl n lastMatchEnd searchPos buf := by
  induction n generalizing lastMatchEnd searchPos buf with
  | zero => omega
  | succ k ih =>
    rw [replaceAllLoop, replaceAllLoop]
    by_cases hpos : searchPos ≤ src.length
    · rw [if_pos hpos, if_pos hpos]
      cases hex : doExecute re src searchPos with
      | none => rfl
      | some a =>
        obtain ⟨hb1, hb2⟩ := searchFrom_bounds _ _ _ _ hex
        dsimp only
        apply ih
        have hw : (if searchPos < src.length then 1 else 0) ≤ 1 := by split <;> omega
        generalize (if searchPos < src.length then 1 else 0) = w at hw
        by_cases h1 : searchPos + w > a.stop
        · rw [if_pos h1]; omega
        · rw [if_neg h1]
          by_cases h2 : searchPos + 1 > a.stop
          · rw [if_pos h2]; omega
          · rw [if_neg h2]; omega
    · rw [if_neg hpos, if_neg hpos]

theorem allMatchesLoop_fuel_succ (re : Re) (src : Str) (n pos : Nat) (prev : Option Nat)
    (h : src.length + 1 - pos < n) :
    allMatchesLoop re src (n + 1) pos prev = allMatchesLoop re src n pos prev := by
  induction n generalizing pos prev with
  | zero => omega
  | succ k ih =>
    rw [allMatchesLoop, allMatchesLoop]
    by_cases hpos : pos ≤ src.length
    · rw [if_pos hpos, if_pos hpos]
      cases hex : doExecute re src pos with
      | none => rfl
      | some a =>
        obtain ⟨hb1, hb2⟩ := searchFrom_bounds _ _ _ _ hex
        dsimp only
        congr 1
        apply ih
        by_cases he : (a.stop == pos) = true
        · rw [if_pos he]
          split <;> omega
        · rw [if_neg he]
          have : a.stop ≠ pos := by simpa using he
          omega
    · rw [if_neg hpos, if_neg hpos]

/-! ## The rewrite functions on ASCII inputs -/

theorem isAsciiText_append (a b : Str) :
    isAsciiText (a ++ b) = (isAsciiText a && isAsciiText b) := by
  simp [isAsciiText, List.all_append]

theorem toNat_le_of_le (d b : Char) (h : d ≤ b) : d.toNat ≤ b.toNat := by
  have h' : d.val.toNat ≤ b.val.toNat := by
    simpa [Char.le_def, UInt32.le_def, BitVec.le_def] using h
  exact h'

theorem toNat_lt_of_word (d : Char) (hd : isWordClass d = true) : d.toNat < 128 := by
  simp only [isWordClass, Bool.or_eq_true, Bool.and_eq_true, decide_eq_true_eq,
    beq_iff_eq] at hd
  have e0 : ('9' : Char).toNat = 57 := rfl
  have e1 : ('Z' : Char).toNat = 90 := rfl
  have e2 : ('z' : Char).toNat = 122 := rfl
  rcases hd with ((hd | hd) | hd) | hd
  · have := toNat_le_of_le _ _ hd.2; omega
  · have := toNat_le_of_le _ _ hd.2; omega
  · have := toNat_le_of_le _ _ hd.2; omega
  · subst hd; decide

theorem isAsciiText_of_plain (name : Str) (h : isPlainName name = true) :
    isAsciiText name = true := by
  unfold isAsciiText
  rw [List.all_eq_true]
  intro c hc
  have hw := List.all_eq_true.1 h c hc
  simpa using toNat_lt_of_word c hw

theorem isAsciiText_stringsJoin (sep : Str) (l : List Str) (hsep : isAsciiText sep = true)
    (hl : l.all isAsciiText = true) : isAsciiText (stringsJoin sep l) = true := by
  induction l with
  | nil => rfl
  | cons a rest ih =>
    rw [List.all_cons, Bool.and_eq_true] at hl
    cases rest with
    | nil => exact hl.1
    | cons b rest' =>
      rw [stringsJoin, isAsciiText_append, isAsciiText_append, hl.1, hsep, ih hl.2]
      rfl

theorem convertToArrowFunction_ascii (uni : Char → Bool) (content name : Str) :
    convertToArrowFunction uni content name = convertToArrowFunction asciiOnly content name := by
  unfold convertToArrowFunction
  by_cases h : isPlainName name = true
  · rw [if_pos h, if_pos h, ReplaceAllString_ascii]
    rw [isAsciiText_append, isAsciiText_append, isAsciiText_of_plain name h]
    rfl
  · rw [if_neg h, if_neg h]

theorem addMemo_ascii (uni : Char → Bool) (content name : Str) :
    addMemo uni content name = addMemo asciiOnly content name := by
  unfold addMemo
  by_cases h : isPlainName name = true
  · simp only [h, if_true]
    rw [ReplaceAllString_ascii]
    rw [isAsciiText_append, isAsciiText_append, isAsciiText_of_plain name h]
    rfl
  · simp only [h, Bool.false_eq_true, if_false]

theorem sortImports_ascii (uni : Char → Bool) (content : Str) (imports : List Str)
    (h : imports.all isAsciiText = true) :
    sortImports uni content imports = sortImports asciiOnly content imports := by
  unfold sortImports
  by_cases h0 : imports.length = 0
  · rw [if_pos h0, if_pos h0]
  · rw [if_neg h0, if_neg h0]
    simp only
    rw [ReplaceAllString_ascii]
    rw [isAsciiText_append, isAsciiText_stringsJoin _ _ (by decide)]
    · rfl
    · rw [List.all_eq_true] at h ⊢
      intro imp himp
      have hperm : (allImports imports).Perm imports := by
        rw [allImports_eq]
        exact (((perm_sortStrings _).append (perm_sortStrings _)).append
          (perm_sortStrings _)).trans (buckets_perm imports)
      exact h imp (hperm.mem_iff.1 himp)

theorem refactoredContent_ascii (uni : Char → Bool) (config : RefactorConfig) (c : Component)
    (h : c.Imports.all isAsciiText = true) :
    refactoredContent uni config c = refactoredContent asciiOnly config c := by
  unfold refactoredContent
  simp only [convertToArrowFunction_ascii uni, addMemo_ascii uni,
    sortImports_ascii uni _ _ h]

/-! ## Rewriting twice -/

theorem rewriteOf_oneImportSource (uni : Char → Bool) :
    rewriteOf uni DefaultConfig "a.jsx".toList oneImportSource =
      some "import a from 'b'\n\nconst x = 1;\n".toList := by
  unfold rewriteOf
  rw [refactoredContent_ascii uni _ _ (by decide!)]
  decide!

theorem rewriteOf_oneImportSource_again (uni : Char → Bool) :
    rewriteOf uni DefaultConfig "a.jsx".toList "import a from 'b'\n\nconst x = 1;\n".toList =
      some "import a from 'b'\n\n\nconst x = 1;\n".toList := by
  unfold rewriteOf
  rw [refactoredContent_ascii uni _ _ (by decide!)]
  decide!

/-- C6 as stated fails: under the default configuration the text
`import a from 'b'`, newline, `const x = 1;`, newline is rewritten to a text
that a second rewrite changes again (each pass of the import sort adds an
empty line), whatever the Unicode tables are. -/
theorem C6_default_rewrite_not_idempotent :
    ¬ ∃ uni : Char → Bool, ∃ T',
      rewriteOf uni DefaultConfig "a.jsx".toList oneImportSource = some T' ∧
      rewriteOf uni DefaultConfig "a.jsx".toList T' = some T' := by
  rintro ⟨uni, T', h1, h2⟩
  rw [rewriteOf_oneImportSource] at h1
  cases h1
  rw [rewriteOf_oneImportSource_again] at h2
  exact absurd h2 (by decide)

theorem rewriteOf_two_functions (uni : Char → Bool) :
    rewriteOf uni { DefaultConfig with SortImports := false } "a.jsx".toList
        "function A() {}\nfunction B() {}\n".toList
      = some "const A = () => {}\nfunction B() {}\n".toList ∧
    rewriteOf uni { DefaultConfig with SortImports := false } "a.jsx".toList
        "const A = () => {}\nfunction B() {}\n".toList
      = some "const A = () => {}\nconst B = () => {}\n".toList := by
  unfold rewriteOf
  rw [refactoredContent_ascii uni _ _ (by decide!), refactoredContent_ascii uni _ _ (by decide!)]
  decide!

/-! ## The memoization import and the import sort -/

theorem refactoredContent_memoSource (uni : Char → Bool) :
    refactoredContent uni DefaultConfig (parseContent "Foo.jsx".toList memoSource) =
      some memoRewritten := by
  rw [refactoredContent_ascii uni _ _ (by decide!)]
  decide!

/-- C5 fails on the code. The file `memoSource` has three props and no `memo`,
so with the default configuration the memoization wrap applies; yet the text
`ApplyRefactoring` writes is `memoRewritten`, which wraps the export in
`memo(...)` and has no import of `memo`: the import sort replaces the block
that starts with the line `addMemo` prepended by the imports extracted before
the rewrite. -/
theorem C5_memo_import_removed_by_sort (uni : Char → Bool) :
    ParseComponent memoSourceFS "Foo.jsx".toList
      = some (parseContent "Foo.jsx".toList memoSource) ∧
    (parseContent "Foo.jsx".toList memoSource).Props.length = 3 ∧
    (parseContent "Foo.jsx".toList memoSource).Imports = ["import React from 'react'".toList] ∧
    stringsContains (parseContent "Foo.jsx".toList memoSource).Content "memo".toList = false ∧
    (∃ fs', ApplyRefactoring uni DefaultConfig (parseContent "Foo.jsx".toList memoSource)
        memoSourceFS = some (fs', Outcome.ok) ∧
      ReadFile fs' "Foo.jsx".toList = some memoRewritten) ∧
    stringsContains memoRewritten "import { memo } from 'react';".toList = false ∧
    stringsContains memoRewritten "export default memo(Foo)".toList = true := by
  refine ⟨rfl, by decide!, by decide!, by decide!, ?_, by decide!, by decide!⟩
  unfold ApplyRefactoring
  rw [refactoredContent_memoSource]
  refine ⟨_, rfl, ?_⟩
  simp [ReadFile, parseContent]

/-- C7 fails on the code. For the file `twoBlockSource` and the imports
extracted from it, `sortImports` replaces both import lines, each by the whole
ordered list: the text after the first block is not left unchanged. -/
theorem C7_every_import_block_replaced (uni : Char → Bool) :
    extractImports twoBlockSource = ["import a from 'a'".toList, "import b from 'b'".toList] ∧
    sortImports uni twoBlockSource (extractImports twoBlockSource) =
      ("import a from 'a'\nimport b from 'b'\n\n".toList ++ "const x = 1;\n".toList ++
        "import a from 'a'\nimport b from 'b'\n\n".toList) ∧
    sortImports uni twoBlockSource (extractImports twoBlockSource) ≠
      ("import a from 'a'\nimport b from 'b'\n\n".toList ++
        "const x = 1;\nimport b from 'b'\n".toList) := by
  have e : sortImports uni twoBlockSource (extractImports twoBlockSource) =
      ("import a from 'a'\nimport b from 'b'\n\n".toList ++ "const x = 1;\n".toList ++
        "import a from 'a'\nimport b from 'b'\n\n".toList) := by
    rw [sortImports_ascii uni _ _ (by decide!)]
    decide!
  refine ⟨by decide!, e, ?_⟩
  rw [e]
  decide

/-! ## Extracted imports and the relative bucket -/

theorem mem_allMatchesLoop (re : Re) (src : Str) (fuel pos : Nat) (prev : Option Nat) (m : Loc)
    (h : m ∈ allMatchesLoop re src fuel pos prev) : ∃ p, doExecute re src p = some m := by
  induction fuel generalizing pos prev with
  | zero => simp [allMatchesLoop] at h
  | succ n ih =>
    rw [allMatchesLoop] at h
    by_cases hpos : pos ≤ src.length
    · rw [if_pos hpos] at h
      cases hex : doExecute re src pos with
      | none => rw [hex] at h; simp at h
      | some a =>
        rw [hex] at h
        simp only [List.mem_append] at h
        rcases h with h | h
        · split at h
          · rw [List.mem_singleton] at h
            exact ⟨pos, by rw [hex, h]⟩
          · simp at h
        · exact ih _ _ h
    · rw [if_neg hpos] at h
      simp at h

theorem mem_run_star_cls (p : Char → Bool) (greedy : Bool) (st st' : MState)
    (h : st' ∈ run (.star (.cls p) greedy) st) :
    ∃ a : Str, st.rest = a ++ st'.rest ∧ a.all p = true ∧ st'.caps = st.caps := by
  rw [run] at h
  exact mem_starRun_cls p greedy _ st st' h

theorem mem_run_importRegex (t : Str) (st : MState) (h : st ∈ run importRegex ⟨t, []⟩) :
    ∃ r : Str, t = "import".toList ++ r ++ st.rest := by
  unfold importRegex at h
  simp only [mem_run_cat] at h
  obtain ⟨m1, h1, m2, h2, m3, h3, h4⟩ := h
  have e1 := (mem_run_lit _ _ _ h1).1
  obtain ⟨a, e2, _, _⟩ := mem_run_star_cls _ _ _ _ h2
  have e3 := (mem_run_lit _ _ _ h3).1
  obtain ⟨b, e4, _, _⟩ := mem_run_star_cls _ _ _ _ h4
  refine ⟨a ++ "from".toList ++ b, ?_⟩
  simp only at e1
  rw [e1, e2, e3, e4]
  simp only [List.append_assoc]

theorem extractImports_starts_with_import (content imp : Str)
    (h : imp ∈ extractImports content) : ∃ r : Str, imp = "import".toList ++ r := by
  unfold extractImports FindAllString allMatches at h
  rw [List.mem_map] at h
  obtain ⟨m, hm, rfl⟩ := h
  obtain ⟨p, hp⟩ := mem_allMatchesLoop _ _ _ _ _ _ hm
  obtain ⟨t, st, hst, _, htext⟩ := searchFrom_caps _ _ _ _ hp
  obtain ⟨r, hr⟩ := mem_run_importRegex t st hst
  refine ⟨r, ?_⟩
  rw [htext, hr]
  simp only [List.length_append, Nat.add_sub_cancel, List.take_left']

theorem relativeBucket_extractImports (content : Str) :
    relativeBucket (extractImports content) = [] := by
  unfold relativeBucket
  rw [List.filter_eq_nil_iff]
  intro imp himp
  obtain ⟨r, rfl⟩ := extractImports_starts_with_import content imp himp
  have : stringsHasPrefix ("import".toList ++ r) ".".toList = false := rfl
  rw [this]
  simp

/-- C8 fails on the code. `sortImports` tests the whole import statement, not
its module path, for a leading `.`; every statement the Fact Extractor returns
starts with `import`, so the relative bucket is empty for every file and a
relative import is sorted among the third-party ones: in `relativeSource` the
statement for `./c` comes before the one for `lodash`. -/
theorem C8_relative_import_not_last (content : Str) :
    relativeBucket (extractImports content) = [] ∧
    extractImports relativeSource =
      ["import b from 'lodash'".toList, "import a from './c'".toList] ∧
    allImports (extractImports relativeSource) =
      ["import a from './c'".toList, "import b from 'lodash'".toList] := by
  exact ⟨relativeBucket_extractImports content, by decide!, by decide!⟩

/-! ## Arrow-function conversion -/

theorem run_cat (a b : Re) (st : MState) : run (.cat a b) st = (run a st).flatMap (run b) := by
  rw [run]

theorem not_space_of_word (c : Char) (h : isWordClass c = true) : isSpaceClass c = false := by
  have hlt := toNat_lt_of_word c h
  simp only [isWordClass, Bool.or_eq_true, Bool.and_eq_true, decide_eq_true_eq,
    beq_iff_eq] at h
  have e0 : ('0' : Char).toNat = 48 := rfl
  have e1 : ('A' : Char).toNat = 65 := rfl
  have e2 : ('a' : Char).toNat = 97 := rfl
  have hge : 48 ≤ c.toNat := by
    rcases h with ((h | h) | h) | h
    · have := toNat_le_of_le _ _ h.1; omega
    · have := toNat_le_of_le _ _ h.1; omega
    · have := toNat_le_of_le _ _ h.1; omega
    · subst h; decide
  have hne : ∀ d : Char, d.toNat < 48 → (c == d) = false := by
    intro d hd
    rw [beq_eq_false_iff_ne]
    rintro rfl
    omega
  simp only [isSpaceClass, hne '\t' (by decide), hne '\n' (by decide),
    hne (Char.ofNat 12) (by decide), hne '\r' (by decide), hne ' ' (by decide), Bool.or_self]

/-- The tail of the arrow pattern, `\)\s*{`. -/
theorem run_arrow_tail (S : Str) (caps : List (Nat × Str)) :
    run (.cat (Re.lit ")".toList) (.cat spaces0 (Re.lit "\x7b".toList)))
      ⟨')' :: ' ' :: '\x7b' :: S, caps⟩ = [⟨S, caps⟩] := by
  have h1 : run (Re.lit ")".toList) ⟨')' :: ' ' :: '\x7b' :: S, caps⟩
      = [⟨' ' :: '\x7b' :: S, caps⟩] := run_lit_append ")".toList _ caps
  have h2 : run spaces0 ⟨' ' :: '\x7b' :: S, caps⟩
      = [⟨'\x7b' :: S, caps⟩, ⟨' ' :: '\x7b' :: S, caps⟩] := by
    unfold spaces0
    rw [run]
    show starRun (run (.cls isSpaceClass)) true (S.length + 1 + 1) ⟨' ' :: '\x7b' :: S, caps⟩ = _
    rw [starRun_step isSpaceClass true _ ' ' _ caps rfl, if_pos rfl,
      starRun_stop isSpaceClass true _ ⟨'\x7b' :: S, caps⟩
        (by intro c cs hc; cases hc; rfl)]
    rfl
  have h3 : run (Re.lit "\x7b".toList) ⟨'\x7b' :: S, caps⟩ = [⟨S, caps⟩] :=
    run_lit_append "\x7b".toList S caps
  have h4 : run (Re.lit "\x7b".toList) ⟨' ' :: '\x7b' :: S, caps⟩ = [] :=
    run_lit_mismatch '\x7b' ' ' [] _ caps (by decide)
  rw [run_cat, h1, List.flatMap_singleton, run_cat, h2, List.flatMap_cons, List.flatMap_singleton,
    h3, h4]
  rfl

theorem run_arrow_tail_mismatch (x : Char) (r : Str) (caps : List (Nat × Str)) (hx : x ≠ ')') :
    run (.cat (Re.lit ")".toList) (.cat spaces0 (Re.lit "\x7b".toList))) ⟨x :: r, caps⟩ = [] := by
  have h : run (Re.lit ")".toList) ⟨x :: r, caps⟩ = [] :=
    run_lit_mismatch ')' x [] r caps (fun h => hx h.symm)
  rw [run_cat, h]
  rfl

/-- A lazy repetition of `.` followed by `f`: as long as `f` fails on the
characters of `a`, the first result is the one `f` gives after `a`. -/
theorem starRun_lazy_flatMap (f : MState → List MState) (a t : Str) (c : List (Nat × Str))
    (fuel : Nat) (hdot : ∀ x ∈ a, isDotClass x = true)
    (hf : ∀ x r, x ∈ a → f ⟨x :: r, c⟩ = []) (hfuel : a.length ≤ fuel) :
    ∃ tail, (starRun (run (.cls isDotClass)) false fuel ⟨a ++ t, c⟩).flatMap f
      = f ⟨t, c⟩ ++ tail := by
  induction a generalizing fuel with
  | nil =>
    cases fuel with
    | zero => exact ⟨[], by simp [starRun]⟩
    | succ n => exact ⟨_, rfl⟩
  | cons x xs ih =>
    cases fuel with
    | zero => simp at hfuel
    | succ n =>
      have hx : isDotClass x = true := hdot x (List.mem_cons_self _ _)
      obtain ⟨tail, ht⟩ := ih n (fun y hy => hdot y (List.mem_cons_of_mem _ hy))
        (fun y r hy => hf y r (List.mem_cons_of_mem _ hy)) (by simpa using hfuel)
      refine ⟨tail, ?_⟩
      rw [List.cons_append, starRun_step isDotClass false n x _ c hx]
      simp only [Bool.false_eq_true, if_false, List.flatMap_cons]
      rw [hf x _ (List.mem_cons_self _ _), ht]
      rfl

theorem run_arrowRegex (N A S : Str) (hN : isPlainName N = true)
    (hA1 : '\n' ∉ A) (hA2 : ')' ∉ A) :
    ∃ tail, run (arrowRegex N)
        ⟨"function ".toList ++ N ++ "(".toList ++ A ++ ") \x7b".toList ++ S, []⟩
      = ⟨S, [(1, A)]⟩ :: tail := by
  -- the text, cut where the pieces of the pattern meet
  have hsrc : "function ".toList ++ N ++ "(".toList ++ A ++ ") \x7b".toList ++ S
      = "function".toList ++ (' ' :: (N ++ ('(' :: (A ++ ')' :: ' ' :: '\x7b' :: S)))) := by
    simp
  rw [hsrc]
  unfold arrowRegex
  -- `function`
  rw [run_cat, run_lit_append, List.flatMap_singleton]
  -- `\s+`
  have hstop : ∀ c cs, (N ++ ('(' :: (A ++ ')' :: ' ' :: '\x7b' :: S))) = c :: cs →
      isSpaceClass c = false := by
    intro c cs hc
    cases N with
    | nil =>
      simp only [List.nil_append, List.cons.injEq] at hc
      rw [← hc.1]; rfl
    | cons n ns =>
      simp only [List.cons_append, List.cons.injEq] at hc
      rw [← hc.1]
      exact not_space_of_word n (by
        have := List.all_eq_true.1 hN n (List.mem_cons_self _ _)
        exact this)
  have hsp1 : run spaces1 ⟨' ' :: (N ++ ('(' :: (A ++ ')' :: ' ' :: '\x7b' :: S))), []⟩
      = [⟨N ++ ('(' :: (A ++ ')' :: ' ' :: '\x7b' :: S)), []⟩] := by
    unfold spaces1 Re.plus
    have hsp : isSpaceClass ' ' = true := by decide
    rw [run_cat, run_cls_cons, if_pos hsp, List.flatMap_singleton, run]
    exact starRun_stop isSpaceClass true _ _ hstop
  rw [run_cat, hsp1, List.flatMap_singleton]
  -- the name
  rw [run_cat, run_lit_append, List.flatMap_singleton]
  -- `\s*`
  have hsp0 : run spaces0 ⟨'(' :: (A ++ ')' :: ' ' :: '\x7b' :: S), []⟩
      = [⟨'(' :: (A ++ ')' :: ' ' :: '\x7b' :: S), []⟩] := by
    unfold spaces0
    rw [run]
    exact starRun_stop isSpaceClass true _ _ (by intro c cs hc; cases hc; rfl)
  rw [run_cat, hsp0, List.flatMap_singleton]
  -- `\(`
  have hlp : run (Re.lit "(".toList) ⟨'(' :: (A ++ ')' :: ' ' :: '\x7b' :: S), []⟩
      = [⟨A ++ ')' :: ' ' :: '\x7b' :: S, []⟩] := run_lit_append "(".toList _ []
  rw [run_cat, hlp, List.flatMap_singleton]
  -- `(.*?)` and the tail
  rw [run_cat]
  rw [run, run, List.flatMap_map]
  have hdot : ∀ x ∈ A, isDotClass x = true := by
    intro x hx
    simp only [isDotClass, bne_iff_ne, ne_eq]
    rintro rfl
    exact hA1 hx
  obtain ⟨tail, ht⟩ := starRun_lazy_flatMap
    (fun st' => run (.cat (Re.lit ")".toList) (.cat spaces0 (Re.lit "\x7b".toList)))
      { st' with caps := (1, (A ++ ')' :: ' ' :: '\x7b' :: S).take
        ((A ++ ')' :: ' ' :: '\x7b' :: S).length - st'.rest.length)) :: st'.caps })
    A (')' :: ' ' :: '\x7b' :: S) [] (A ++ ')' :: ' ' :: '\x7b' :: S).length hdot
    (by
      intro x r hx
      exact run_arrow_tail_mismatch x r _ (by rintro rfl; exact hA2 hx))
    (by simp)
  refine ⟨tail, ?_⟩
  rw [ht]
  simp only
  rw [show (A ++ ')' :: ' ' :: '\x7b' :: S).length - (')' :: ' ' :: '\x7b' :: S).length
      = A.length by simp, List.take_left' rfl, run_arrow_tail]
  rfl

theorem extract_group_one (uni : Char → Bool) (post : Str) :
    extract uni ('1' :: ')' :: post) = some ⟨['1'], some 1, ')' :: post⟩ := rfl

theorem expandLoop_plain (uni : Char → Bool) (m : Loc) (fuel : Nat) (template dst : Str)
    (h : '$' ∉ template) : expandLoop uni m fuel template dst = dst ++ template := by
  cases fuel with
  | zero => rfl
  | succ n => rw [expandLoop, cutDollar_none template h]

theorem expand_group_one (uni : Char → Bool) (m : Loc) (before post dst : Str)
    (h1 : '$' ∉ before) (h2 : '$' ∉ post) :
    expand uni m (before ++ '$' :: '1' :: ')' :: post) dst
      = dst ++ before ++ groupText m 1 ++ ')' :: post := by
  unfold expand
  rw [expandLoop, cutDollar_append before _ h1]
  simp only [extract_group_one]
  apply expandLoop_plain
  intro h
  rcases List.mem_cons.1 h with h | h
  · exact absurd h (by decide)
  · exact h2 h

theorem expandLoop_extends (uni : Char → Bool) (m : Loc) (fuel : Nat) (template dst : Str) :
    ∃ out, expandLoop uni m fuel template dst = dst ++ out := by
  induction fuel generalizing template dst with
  | zero => exact ⟨_, rfl⟩
  | succ n ih =>
    rw [expandLoop]
    cases cutDollar template with
    | none => exact ⟨_, rfl⟩
    | some p =>
      obtain ⟨before, after⟩ := p
      simp only
      split
      · obtain ⟨out, ho⟩ := ih _ (dst ++ before ++ ['$'])
        exact ⟨before ++ ['$'] ++ out, by rw [ho]; simp⟩
      · cases extract uni after with
        | none =>
          obtain ⟨out, ho⟩ := ih after (dst ++ before ++ ['$'])
          exact ⟨before ++ ['$'] ++ out, by rw [ho]; simp⟩
        | some e =>
          simp only
          split
          · rename_i k _
            obtain ⟨out, ho⟩ := ih e.rest (dst ++ before ++ groupText m k)
            exact ⟨before ++ groupText m k ++ out, by rw [ho]; simp⟩
          · obtain ⟨out, ho⟩ := ih e.rest (dst ++ before)
            exact ⟨before ++ out, by rw [ho]; simp⟩

theorem replaceAllLoop_extends (uni : Char → Bool) (re : Re) (src repl : Str)
    (fuel lastMatchEnd searchPos : Nat) (buf : Str) :
    ∃ out, replaceAllLoop uni re src repl fuel lastMatchEnd searchPos buf = buf ++ out := by
  induction fuel generalizing lastMatchEnd searchPos buf with
  | zero => exact ⟨_, rfl⟩
  | succ n ih =>
    rw [replaceAllLoop]
    by_cases hpos : searchPos ≤ src.length
    · rw [if_pos hpos]
      cases doExecute re src searchPos with
      | none => exact ⟨_, rfl⟩
      | some a =>
        dsimp only
        by_cases hc : (decide (a.stop > lastMatchEnd) || a.start == 0) = true
        · rw [if_pos hc]
          obtain ⟨o1, h1⟩ := expandLoop_extends uni a (repl.length + 1) repl
            (buf ++ List.take (a.start - lastMatchEnd) (List.drop lastMatchEnd src))
          obtain ⟨o2, h2⟩ := ih a.stop
            (if searchPos + (if searchPos < src.length then 1 else 0) > a.stop then
              searchPos + (if searchPos < src.length then 1 else 0)
            else if searchPos + 1 > a.stop then searchPos + 1 else a.stop)
            (expand uni a repl
              (buf ++ List.take (a.start - lastMatchEnd) (List.drop lastMatchEnd src)))
          refine ⟨List.take (a.start - lastMatchEnd) (List.drop lastMatchEnd src) ++ o1 ++ o2, ?_⟩
          rw [h2, expand, h1]
          simp
        · rw [if_neg hc]
          obtain ⟨o2, h2⟩ := ih a.stop
            (if searchPos + (if searchPos < src.length then 1 else 0) > a.stop then
              searchPos + (if searchPos < src.length then 1 else 0)
            else if searchPos + 1 > a.stop then searchPos + 1 else a.stop)
            (buf ++ List.take (a.start - lastMatchEnd) (List.drop lastMatchEnd src))
          exact ⟨List.take (a.start - lastMatchEnd) (List.drop lastMatchEnd src) ++ o2,
            by rw [h2]; simp⟩
    · rw [if_neg hpos]
      exact ⟨_, rfl⟩

/-- When the pattern matches at the very start of the text, the result of
`ReplaceAllString` begins with the expansion of the template for that match. -/
theorem ReplaceAllString_match_at_start (uni : Char → Bool) (re : Re) (c : Char) (cs repl : Str)
    (st : MState) (tail : List MState) (h : run re ⟨c :: cs, []⟩ = st :: tail) :
    ∃ out, ReplaceAllString uni re (c :: cs) repl =
      expand uni ⟨0, 0 + ((c :: cs).length - st.rest.length),
        (c :: cs).take ((c :: cs).length - st.rest.length), st.caps⟩ repl [] ++ out := by
  have hex : doExecute re (c :: cs) 0 = some ⟨0, 0 + ((c :: cs).length - st.rest.length),
      (c :: cs).take ((c :: cs).length - st.rest.length), st.caps⟩ := by
    unfold doExecute
    rw [List.drop_zero, searchFrom, h]
    rfl
  unfold ReplaceAllString
  rw [replaceAllLoop, if_pos (Nat.zero_le _), hex]
  simp only [List.drop_zero, Nat.sub_self, List.take_zero, List.append_nil, beq_self_eq_true,
    Bool.or_true, if_true]
  exact replaceAllLoop_extends uni re (c :: cs) repl _ _ _ _

/-- C2. For a name `N` of word characters, an argument text `A` without
newline and without `)`, and any text `S`, `convertToArrowFunction` applied to
`function N(A) {` followed by `S`, with component name `N`, returns a text that
begins with `const N = (A) => {`. -/
theorem C2_convertToArrowFunction_declaration (uni : Char → Bool) (N A S : Str)
    (hN : isPlainName N = true) (hA1 : '\n' ∉ A) (hA2 : ')' ∉ A) :
    ∃ out, convertToArrowFunction uni
        ("function ".toList ++ N ++ "(".toList ++ A ++ ") \x7b".toList ++ S) N
      = some ("const ".toList ++ N ++ " = (".toList ++ A ++ ") => \x7b".toList ++ out) := by
  obtain ⟨tail, hrun⟩ := run_arrowRegex N A S hN hA1 hA2
  have hsrc : "function ".toList ++ N ++ "(".toList ++ A ++ ") \x7b".toList ++ S
      = 'f' :: ("unction ".toList ++ N ++ "(".toList ++ A ++ ") \x7b".toList ++ S) := rfl
  rw [hsrc] at hrun ⊢
  obtain ⟨out, hout⟩ := ReplaceAllString_match_at_start uni (arrowRegex N) 'f' _
    ("const ".toList ++ N ++ " = ($1) => \x7b".toList) _ tail hrun
  have htemplate : "const ".toList ++ N ++ " = ($1) => \x7b".toList
      = ("const ".toList ++ N ++ " = (".toList) ++ '$' :: '1' :: ')' :: " => \x7b".toList := by
    simp
  have hpre : '$' ∉ "const ".toList ++ N ++ " = (".toList := by
    intro h
    rcases List.mem_append.1 h with h | h
    · rcases List.mem_append.1 h with h | h
      · exact absurd h (by decide)
      · exact not_dollar_of_plain N hN h
    · exact absurd h (by decide)
  rw [htemplate, expand_group_one uni _ _ _ _ hpre (by decide)] at hout
  refine ⟨out, ?_⟩
  unfold convertToArrowFunction
  rw [if_pos hN, htemplate, hout]
  simp [groupText, capLookup]

/-- C2 at the scenario of the specification: `fooSource` with the name `Foo`
yields a text that begins with `const Foo = (props) => {`; the whole result is
the declaration converted and the body unchanged. -/
theorem C2_convertToArrowFunction_witness :
    (∃ out, convertToArrowFunction asciiOnly
        ("function ".toList ++ "Foo".toList ++ "(".toList ++ "props".toList ++ ") \x7b".toList
          ++ " return <div>\x7bx\x7d</div>; \x7d".toList) "Foo".toList
      = some ("const ".toList ++ "Foo".toList ++ " = (".toList ++ "props".toList
          ++ ") => \x7b".toList ++ out)) ∧
    convertToArrowFunction asciiOnly fooSource "Foo".toList
      = some "const Foo = (props) => \x7b return <div>\x7bx\x7d</div>; \x7d".toList ∧
    (parseContent "Foo.jsx".toList fooSource).Name = "Foo".toList :=
  ⟨C2_convertToArrowFunction_declaration asciiOnly "Foo".toList "props".toList
      " return <div>\x7bx\x7d</div>; \x7d".toList (by decide) (by decide) (by decide),
    by decide!, by decide!⟩

end RefactorTool
